import Mathlib

/-!
Verification of the paragraph diff engine in `appy.py`.

The source builds on Python's `difflib.SequenceMatcher` (with `isjunk=None`
and the default `autojunk=True`).  The matcher is embedded here faithfully:

* `b2j` is the index map built by `SequenceMatcher.__chain_b`: for each
  element the ascending list of its positions in `b`; when `len(b) >= 200`,
  "popular" elements (appearing more than `len(b) // 100 + 1` times) are
  purged.  With `isjunk=None` the junk set is empty.
* `find_longest_match` is the dynamic program of the source (row-by-row
  `j2len` table), followed by the two extension loops (the junk extension
  loops are no-ops because the junk set is empty).
* `get_matching_blocks` uses a queue in the source and then sorts the
  collected blocks; the blocks are produced here by the equivalent in-order
  recursion (the recursion tree is the same, and in-order traversal yields
  the list already sorted because the first components of blocks from the
  left subproblem / the found block / the right subproblem are strictly
  increasing), followed by the same adjacent-block collapsing pass and the
  terminating `(la, lb, 0)` sentinel.  Recursion depth is bounded by the
  width of the original range, so a fuel argument larger than that bound
  makes the recursion structural without changing any reachable value.
* `get_opcodes` fills the gaps between matching blocks with
  `replace`/`delete`/`insert` tags and the blocks with `equal`.

Machine integers do not occur (Python's are unbounded); strings are Lean
strings (lists of characters).  Python's `str.split()` and `str.strip()`
are modelled over `Char.isWhitespace`, and `html.escape` by its equivalent
character-wise expansion.
-/

namespace DocComparator

/-- The index map `b2j` before purging: all positions of `x` in `b`,
in ascending order (the source builds it by enumerating `b`). -/
def b2jRaw {α : Type} [DecidableEq α] [Inhabited α] (b : List α) (x : α) : List Nat :=
  (List.range b.length).filter fun j => decide (b.getD j default = x)

/-- The `b2j` map of `SequenceMatcher.__chain_b` with `isjunk=None` and
`autojunk=True`: positions of `x` in `b`, except that popular elements
(more than `len(b) // 100 + 1` occurrences when `len(b) >= 200`) are purged. -/
def b2j {α : Type} [DecidableEq α] [Inhabited α] (b : List α) (x : α) : List Nat :=
  let idxs := b2jRaw b x
  if 200 ≤ b.length ∧ b.length / 100 + 1 < idxs.length then [] else idxs

/-- State of the inner loop of `find_longest_match`: the `newj2len` row
being built together with `besti, bestj, bestsize`. -/
abbrev FlmSt : Type := (Nat → Nat) × Nat × Nat × Nat

/-- One step of the inner loop of `find_longest_match`: for position `j`
of `a[i]` in `b`, set `k = newj2len[j] = j2len.get(j-1, 0) + 1` (reading
the previous row `old`) and update the best block when `k > bestsize`
(the source sets `besti, bestj, bestsize = i-k+1, j-k+1, k`). -/
def flmStep (old : Nat → Nat) (i : Nat) : FlmSt → Nat → FlmSt
  | (nj, bi, bj, bs), j =>
    let k := (if j = 0 then 0 else old (j - 1)) + 1
    let nj2 : Nat → Nat := fun x => if x = j then k else nj x
    if bs < k then (nj2, i + 1 - k, j + 1 - k, k) else (nj2, bi, bj, bs)

/-- One row of the dynamic program of `find_longest_match`: iterate over
the positions of `a[i]` in `b` restricted to `[blo, bhi)` (the source
skips `j < blo` with `continue` and stops at `j >= bhi` with `break`;
the position lists are ascending so this is the same restriction),
starting from an empty `newj2len` row. -/
def flmRow {α : Type} [DecidableEq α] [Inhabited α] (a b : List α) (blo bhi : Nat)
    (st : FlmSt) (i : Nat) : FlmSt :=
  let js := (b2j b (a.getD i default)).filter fun j => decide (blo ≤ j) && decide (j < bhi)
  js.foldl (flmStep st.1 i) ((fun _ => 0), st.2)

/-- The dynamic program of `find_longest_match` over rows `alo..ahi-1`,
starting from `besti, bestj, bestsize = alo, blo, 0`. -/
def flmDP {α : Type} [DecidableEq α] [Inhabited α] (a b : List α)
    (alo ahi blo bhi : Nat) : Nat × Nat × Nat :=
  ((List.range' alo (ahi - alo)).foldl (flmRow a b blo bhi) ((fun _ => 0), alo, blo, 0)).2

/-- The first extension loop of `find_longest_match`: grow the block to
the left while `besti > alo and bestj > blo and a[besti-1] == b[bestj-1]`
(the junk test is vacuous since the junk set is empty).  The loop
decrements `besti` each iteration, so it is structural in `besti`. -/
def extendLeft {α : Type} [DecidableEq α] [Inhabited α] (a b : List α)
    (alo blo : Nat) : Nat → Nat → Nat → Nat × Nat × Nat
  | 0, bj, bs => (0, bj, bs)
  | bi + 1, bj, bs =>
    if alo < bi + 1 ∧ blo < bj ∧ a.getD bi default = b.getD (bj - 1) default then
      extendLeft a b alo blo bi (bj - 1) (bs + 1)
    else (bi + 1, bj, bs)

/-- The second extension loop of `find_longest_match`: grow the block to
the right while `besti+bestsize < ahi and bestj+bestsize < bhi and
a[besti+bestsize] == b[bestj+bestsize]`.  Each iteration increases
`bestsize` by one, so `ahi - (besti + bestsize)` iterations suffice; the
fuel argument is kept equal to that quantity, making the loop structural
(at fuel `0` the first guard `besti+bestsize < ahi` is false anyway). -/
def extendRightF {α : Type} [DecidableEq α] [Inhabited α] (a b : List α)
    (ahi bhi bi bj : Nat) : Nat → Nat → Nat
  | 0, bs => bs
  | fuel + 1, bs =>
    if bi + bs < ahi ∧ bj + bs < bhi ∧ a.getD (bi + bs) default = b.getD (bj + bs) default then
      extendRightF a b ahi bhi bi bj fuel (bs + 1)
    else bs

/-- `SequenceMatcher.find_longest_match(alo, ahi, blo, bhi)`: the dynamic
program followed by the two extension loops (the junk-extension loops of
the source are no-ops because `isjunk=None`). -/
def find_longest_match {α : Type} [DecidableEq α] [Inhabited α] (a b : List α)
    (alo ahi blo bhi : Nat) : Nat × Nat × Nat :=
  let p := flmDP a b alo ahi blo bhi
  let q := extendLeft a b alo blo p.1 p.2.1 p.2.2
  let bs := extendRightF a b ahi bhi q.1 q.2.1 (ahi - (q.1 + q.2.2)) q.2.2
  (q.1, q.2.1, bs)

/-- The recursion of `get_matching_blocks`: find the longest match of the
range, stop if it is empty, and otherwise recurse on the part before it
and the part after it.  The source drives the same recursion tree with an
explicit queue and sorts the collected blocks afterwards; the in-order
traversal here yields that sorted list directly.  The fuel bounds the
recursion depth; each recursive call shrinks the `a`-range strictly, so
fuel exceeding `ahi - alo` is never exhausted. -/
def matchingBlocksF {α : Type} [DecidableEq α] [Inhabited α] (a b : List α) :
    Nat → Nat → Nat → Nat → Nat → List (Nat × Nat × Nat)
  | 0, _, _, _, _ => []
  | fuel + 1, alo, ahi, blo, bhi =>
    let m := find_longest_match a b alo ahi blo bhi
    if m.2.2 = 0 then []
    else
      matchingBlocksF a b fuel alo m.1 blo m.2.1
        ++ (m.1, m.2.1, m.2.2)
        :: matchingBlocksF a b fuel (m.1 + m.2.2) ahi (m.2.1 + m.2.2) bhi

/-- The second phase of `get_matching_blocks`: collapse adjacent matching
blocks, carrying the current block `(i1, j1, k1)` (initially `(0, 0, 0)`)
and emitting it when the next block is not adjacent. -/
def collapseBlocks : Nat → Nat → Nat → List (Nat × Nat × Nat) → List (Nat × Nat × Nat)
  | i1, j1, k1, [] => if k1 ≠ 0 then [(i1, j1, k1)] else []
  | i1, j1, k1, (i2, j2, k2) :: rest =>
    if i1 + k1 = i2 ∧ j1 + k1 = j2 then collapseBlocks i1 j1 (k1 + k2) rest
    else (if k1 ≠ 0 then [(i1, j1, k1)] else []) ++ collapseBlocks i2 j2 k2 rest

/-- `SequenceMatcher.get_matching_blocks()`: the recursively found blocks,
adjacent blocks collapsed, terminated by the sentinel `(la, lb, 0)`. -/
def get_matching_blocks {α : Type} [DecidableEq α] [Inhabited α] (a b : List α) :
    List (Nat × Nat × Nat) :=
  collapseBlocks 0 0 0 (matchingBlocksF a b (a.length + 1) 0 a.length 0 b.length)
    ++ [(a.length, b.length, 0)]

/-- The loop of `SequenceMatcher.get_opcodes()`: walk the matching blocks
keeping the current position `(i, j)`; a nonempty gap before a block
becomes a `replace`/`delete`/`insert` opcode and a nonempty block an
`equal` opcode. -/
def get_opcodes_aux : Nat → Nat → List (Nat × Nat × Nat) →
    List (String × Nat × Nat × Nat × Nat)
  | _, _, [] => []
  | i, j, (ai, bj, size) :: rest =>
    (if i < ai ∧ j < bj then [("replace", i, ai, j, bj)]
     else if i < ai then [("delete", i, ai, j, bj)]
     else if j < bj then [("insert", i, ai, j, bj)]
     else [])
    ++ (if size ≠ 0 then [("equal", ai, ai + size, bj, bj + size)] else [])
    ++ get_opcodes_aux (ai + size) (bj + size) rest

/-- `SequenceMatcher.get_opcodes()` for sequences `a` (original) and `b`
(revised). -/
def get_opcodes {α : Type} [DecidableEq α] [Inhabited α] (a b : List α) :
    List (String × Nat × Nat × Nat × Nat) :=
  get_opcodes_aux 0 0 (get_matching_blocks a b)

/-- `html.escape` (with its default `quote=True`) on one character: the
sequence of `str.replace` calls of the source is equivalent to this
character-wise expansion. -/
def escapeChar (c : Char) : String :=
  if c = '&' then "&amp;"
  else if c = '<' then "&lt;"
  else if c = '>' then "&gt;"
  else if c = '"' then "&quot;"
  else if c = Char.ofNat 39 then "&#x27;"
  else String.singleton c

/-- `html.escape(s)` as used by the source on every displayed token. -/
def escape (s : String) : String :=
  String.join (s.data.map escapeChar)

/-- Tokenizer for Python's `str.split()` with no separator: walk the
characters keeping the (reversed) current token, flushing it at every
whitespace run. -/
def tokenize : List Char → List Char → List String
  | [], cur => if cur.isEmpty then [] else [String.mk cur.reverse]
  | c :: rest, cur =>
    if c.isWhitespace then
      if cur.isEmpty then tokenize rest []
      else String.mk cur.reverse :: tokenize rest []
    else tokenize rest (c :: cur)

/-- Python's `str.split()` with no separator: maximal runs of
non-whitespace characters (whitespace runs separate tokens and produce no
empty pieces). -/
def pysplit (s : String) : List String :=
  tokenize s.data []

/-- Python's `str.strip()` with no argument: drop leading and trailing
whitespace. -/
def pystrip (s : String) : String :=
  ⟨((s.data.dropWhile Char.isWhitespace).reverse.dropWhile Char.isWhitespace).reverse⟩

/-- The body of the opcode loop of `highlight_differences`: `equal`
tokens are escaped and appended to both outputs; `replace`/`delete`
tokens are wrapped in `<u>…</u>` and appended to the original-side
output; `replace`/`insert` tokens are wrapped and appended to the
revised-side output (the source slices `a_words[i1:i2]`/`b_words[j1:j2]`). -/
def hlStep (aw bw : List String) (acc : List String × List String)
    (op : String × Nat × Nat × Nat × Nat) : List String × List String :=
  let aOut :=
    if op.1 = "equal" then acc.1 ++ ((aw.drop op.2.1).take (op.2.2.1 - op.2.1)).map escape
    else if op.1 = "replace" ∨ op.1 = "delete" then
      acc.1 ++ ((aw.drop op.2.1).take (op.2.2.1 - op.2.1)).map
        (fun w => "<u>" ++ escape w ++ "</u>")
    else acc.1
  let bOut :=
    if op.1 = "equal" then acc.2 ++ ((bw.drop op.2.2.2.1).take (op.2.2.2.2 - op.2.2.2.1)).map escape
    else if op.1 = "replace" ∨ op.1 = "insert" then
      acc.2 ++ ((bw.drop op.2.2.2.1).take (op.2.2.2.2 - op.2.2.2.1)).map
        (fun w => "<u>" ++ escape w ++ "</u>")
    else acc.2
  (aOut, bOut)

/-- `highlight_differences(a, b)` of the source: split both strings into
words, run `SequenceMatcher` over the word lists, mark differing words
with `<u>…</u>`, and join each side with single spaces. -/
def highlight_differences (a b : String) : String × String :=
  let a_words := pysplit a
  let b_words := pysplit b
  let outs := (get_opcodes a_words b_words).foldl (hlStep a_words b_words) ([], [])
  (String.intercalate " " outs.1, String.intercalate " " outs.2)

/-- One row of the comparison result: the source uses a dict with keys
`"Status"`, `"Original"`, `"Revised"`. -/
structure ChangeRecord where
  Status : String
  Original : String
  Revised : String
deriving DecidableEq, Repr

/-- The records that `compare_documents` appends for a single opcode:
`equal` pairs the two ranges positionally (`zip`) with the raw paragraph
texts; `replace` pairs the first `min` entries (escaped texts when the
stripped texts coincide, highlighter output otherwise) and then emits the
leftover `Deleted` and `Added` records; `delete`/`insert` emit wholesale
`Deleted`/`Added` records with the placeholder on the missing side. -/
def recordsOfOpcode (o r : List String) (op : String × Nat × Nat × Nat × Nat) :
    List ChangeRecord :=
  let tag := op.1
  let i1 := op.2.1
  let i2 := op.2.2.1
  let j1 := op.2.2.2.1
  let j2 := op.2.2.2.2
  if tag = "equal" then
    ((List.range' i1 (i2 - i1)).zip (List.range' j1 (j2 - j1))).map fun ij =>
      ⟨"Same", o.getD ij.1 default, r.getD ij.2 default⟩
  else if tag = "replace" then
    ((List.range (min (i2 - i1) (j2 - j1))).map fun k =>
      let origRaw := o.getD (i1 + k) default
      let revRaw := r.getD (j1 + k) default
      if pystrip origRaw = pystrip revRaw then
        ⟨"Same", escape origRaw, escape revRaw⟩
      else
        ⟨"Modified", (highlight_differences origRaw revRaw).1,
          (highlight_differences origRaw revRaw).2⟩)
    ++ ((List.range' (min (i2 - i1) (j2 - j1)) ((i2 - i1) - min (i2 - i1) (j2 - j1))).map
        fun k => ⟨"Deleted", o.getD (i1 + k) default, "<Deleted>"⟩)
    ++ ((List.range' (min (i2 - i1) (j2 - j1)) ((j2 - j1) - min (i2 - i1) (j2 - j1))).map
        fun k => ⟨"Added", "<New>", r.getD (j1 + k) default⟩)
  else if tag = "delete" then
    (List.range' i1 (i2 - i1)).map fun i => ⟨"Deleted", o.getD i default, "<Deleted>"⟩
  else if tag = "insert" then
    (List.range' j1 (j2 - j1)).map fun j => ⟨"Added", "<New>", r.getD j default⟩
  else []

/-- `compare_documents(original_paras, revised_paras)`: run the matcher
over the paragraph lists and append the records of each opcode in order. -/
def compare_documents (original_paras revised_paras : List String) : List ChangeRecord :=
  (get_opcodes original_paras revised_paras).flatMap
    (recordsOfOpcode original_paras revised_paras)

/-- The total size of all matching blocks, as summed by
`SequenceMatcher.ratio()`. -/
def sm_matches {α : Type} [DecidableEq α] [Inhabited α] (a b : List α) : Nat :=
  ((get_matching_blocks a b).map fun m => m.2.2).sum

/-- `SequenceMatcher.ratio()`: `2.0 * matches / total` (and `1.0` when
both sequences are empty), modelled over the rationals. -/
def ratioOf {α : Type} [DecidableEq α] [Inhabited α] (a b : List α) : ℚ :=
  if a.length + b.length = 0 then 1
  else (2 * sm_matches a b : ℚ) / (a.length + b.length : ℚ)

/-- `classify_diff(old, new, threshold)` of the source.  The similarity
ratio is computed over the character sequences of the two strings; both
arms of the threshold comparison return `("Modified", old, new)`. -/
def classify_diff (old new : String) (threshold : ℚ) : String × String × String :=
  if old = new then ("Same", old, new)
  else if new = "" then ("Deleted", old, "<Deleted>")
  else if old = "" then ("Added", "<New>", new)
  else if threshold ≤ ratioOf old.data new.data then ("Modified", old, new)
  else ("Modified", old, new)

/-- Modelled from the spec: the threshold-free classifier implementing
only the exact-match rule, against which `classify_diff` is compared
(the spec calls the ratio computation dead logic). -/
def classify_exact (old new : String) : String × String × String :=
  if old = new then ("Same", old, new)
  else if new = "" then ("Deleted", old, "<Deleted>")
  else if old = "" then ("Added", "<New>", new)
  else ("Modified", old, new)

/-- Scan for the closing `>` of a tag as the regex `<.*?>` does: return
the remainder after the first `'>'`, failing at a newline (`.` does not
match `'\n'`) or at the end of the string. -/
def spanToGt : List Char → Option (List Char)
  | [] => none
  | c :: rest =>
    if c = '>' then some rest
    else if c = '\n' then none
    else spanToGt rest

/-- The remainder returned by `spanToGt` is a suffix of the input, hence
no longer than it. -/
theorem spanToGt_length_le : ∀ {l l' : List Char}, spanToGt l = some l' → l'.length ≤ l.length := by
  intro l
  induction l with
  | nil => intro l' h; simp [spanToGt] at h
  | cons c rest ih =>
    intro l' h
    by_cases hc : c = '>'
    · simp [spanToGt, hc] at h
      simp [← h, List.length_cons]
    · by_cases hn : c = '\n'
      · simp [spanToGt, hc, hn] at h
      · simp only [spanToGt, if_neg hc, if_neg hn] at h
        have := ih h
        simp only [List.length_cons]
        omega

/-- `re.sub(r'<.*?>', '', text)` scanning left to right: a `'<'` with a
closing `'>'` before any newline starts a match whose characters are all
dropped; any other character is kept.  The fuel is kept at least the
length of the list (matches only shorten the remainder), making the
recursion structural; at fuel `0` the list is empty. -/
def stripTagsF : Nat → List Char → List Char
  | 0, _ => []
  | _ + 1, [] => []
  | fuel + 1, c :: rest =>
    if c = '<' then
      match spanToGt rest with
      | some rest2 => stripTagsF fuel rest2
      | none => c :: stripTagsF fuel rest
    else c :: stripTagsF fuel rest

/-- `strip_tags(text)` of the source: `re.sub(r'<.*?>', '', text)`. -/
def strip_tags (s : String) : String :=
  ⟨stripTagsF s.data.length s.data⟩

/-- `translate_status(status)` of the source: the Korean display label,
defaulting to the status itself. -/
def translate_status (status : String) : String :=
  if status = "Same" then "동일"
  else if status = "Modified" then "일부 수정"
  else if status = "Added" then "신설"
  else if status = "Deleted" then "삭제"
  else status

/-- The three cell texts that `create_docx_report` writes for each row:
`Same` rows are skipped, the status is translated, and both text cells
pass through `strip_tags`. -/
def create_docx_cells (results : List ChangeRecord) : List (String × String × String) :=
  (results.filter fun row => row.Status ≠ "Same").map fun row =>
    (translate_status row.Status, strip_tags row.Original, strip_tags row.Revised)

/-! ### Invariants of the matcher -/

/-- Fold invariant preservation. -/
theorem foldl_inv {σ β : Type*} (P : σ → Prop) (f : σ → β → σ) :
    ∀ (l : List β) (s : σ), P s → (∀ s' x, x ∈ l → P s' → P (f s' x)) → P (l.foldl f s) := by
  intro l
  induction l with
  | nil => intro s h _; exact h
  | cons x xs ih =>
    intro s h hstep
    exact ih (f s x) (hstep s x (by simp) h)
      (fun s' y hy hp => hstep s' y (by simp [hy]) hp)

/-- Fold invariant preservation over a row index range. -/
theorem foldl_range'_inv {σ : Type*} (P : Nat → σ → Prop) (f : σ → Nat → σ) :
    ∀ (n alo : Nat) (s : σ), P alo s →
      (∀ i s', alo ≤ i → i < alo + n → P i s' → P (i + 1) (f s' i)) →
      P (alo + n) ((List.range' alo n).foldl f s) := by
  intro n
  induction n with
  | zero => intro alo s h _; simpa using h
  | succ m ih =>
    intro alo s h hstep
    rw [List.range'_succ]
    have h1 : P (alo + 1) (f s alo) := hstep alo s le_rfl (by omega) h
    have h2 := ih (alo + 1) (f s alo) h1
      (fun i s' hi1 hi2 hp => hstep i s' (by omega) (by omega) hp)
    have he : alo + 1 + m = alo + (m + 1) := by omega
    rw [he] at h2
    simpa using h2

/-- Bounds of the best block maintained by the dynamic program: it stays
inside the requested ranges. -/
theorem flmDP_bounds {α : Type} [DecidableEq α] [Inhabited α] (a b : List α)
    (alo ahi blo bhi : Nat) (h1 : alo ≤ ahi) (h2 : blo ≤ bhi) :
    alo ≤ (flmDP a b alo ahi blo bhi).1 ∧ blo ≤ (flmDP a b alo ahi blo bhi).2.1 ∧
      (flmDP a b alo ahi blo bhi).1 + (flmDP a b alo ahi blo bhi).2.2 ≤ ahi ∧
      (flmDP a b alo ahi blo bhi).2.1 + (flmDP a b alo ahi blo bhi).2.2 ≤ bhi := by
  have main := foldl_range'_inv
    (fun (i : Nat) (st : FlmSt) =>
      (∀ x, st.1 x ≤ i - alo ∧ (st.1 x ≠ 0 → blo ≤ x ∧ st.1 x ≤ x + 1 - blo)) ∧
      alo ≤ st.2.1 ∧ blo ≤ st.2.2.1 ∧
      st.2.1 + st.2.2.2 ≤ ahi ∧ st.2.2.1 + st.2.2.2 ≤ bhi)
    (flmRow a b blo bhi) (ahi - alo) alo ((fun _ => 0), alo, blo, 0)
    (⟨fun x => by simp, le_rfl, le_rfl, by simpa using h1, by simpa using h2⟩)
    (by
      intro i st hi1 hi2 hp
      obtain ⟨hj2, hbest⟩ := hp
      simp only [flmRow]
      have hrow := foldl_inv
        (fun (st' : FlmSt) =>
          (∀ x, st'.1 x ≤ i + 1 - alo ∧ (st'.1 x ≠ 0 → blo ≤ x ∧ st'.1 x ≤ x + 1 - blo)) ∧
          alo ≤ st'.2.1 ∧ blo ≤ st'.2.2.1 ∧
          st'.2.1 + st'.2.2.2 ≤ ahi ∧ st'.2.2.1 + st'.2.2.2 ≤ bhi)
        (flmStep st.1 i)
        ((b2j b (a.getD i default)).filter fun j => decide (blo ≤ j) && decide (j < bhi))
        ((fun _ => 0), st.2)
        (⟨fun x => by simp, hbest⟩)
        (by
          intro st' j hj hq
          have hjr : blo ≤ j ∧ j < bhi := by
            have := List.mem_filter.mp hj
            simpa using this.2
          obtain ⟨nj, bi, bj, bs⟩ := st'
          obtain ⟨hq1, hq2, hq3, hq4, hq5⟩ := hq
          unfold flmStep
          dsimp only
          set K := (if j = 0 then 0 else st.1 (j - 1)) + 1 with hK
          have hk1 : K ≤ i + 1 - alo := by
            rw [hK]
            by_cases hj0 : j = 0
            · simp [hj0]; omega
            · simp only [if_neg hj0]
              have := (hj2 (j - 1)).1
              omega
          have hk2 : K ≤ j + 1 - blo := by
            rw [hK]
            by_cases hj0 : j = 0
            · simp [hj0]; omega
            · simp only [if_neg hj0]
              by_cases hz : st.1 (j - 1) = 0
              · simp [hz]; omega
              · have := (hj2 (j - 1)).2 hz
                omega
          have hkpos : 0 < K := by rw [hK]; exact Nat.succ_pos _
          by_cases hbs : bs < K
          · rw [if_pos hbs]
            refine ⟨fun x => ?_, ?_, ?_, ?_, ?_⟩
            · dsimp only
              by_cases hx : x = j
              · simp only [hx, if_pos rfl]
                exact ⟨hk1, fun _ => ⟨hjr.1, hk2⟩⟩
              · simp only [if_neg hx]
                exact hq1 x
            · dsimp only; omega
            · dsimp only; omega
            · dsimp only; omega
            · dsimp only; omega
          · rw [if_neg hbs]
            refine ⟨fun x => ?_, hq2, hq3, hq4, hq5⟩
            dsimp only
            by_cases hx : x = j
            · simp only [hx, if_pos rfl]
              exact ⟨hk1, fun _ => ⟨hjr.1, hk2⟩⟩
            · simp only [if_neg hx]
              exact hq1 x)
      refine ⟨fun x => ⟨?_, (hrow.1 x).2⟩, hrow.2⟩
      have := (hrow.1 x).1
      omega)
  have he : alo + (ahi - alo) = ahi := by omega
  rw [he] at main
  unfold flmDP
  exact main.2

/-- The left extension loop preserves the block sums and the lower
bounds. -/
theorem extendLeft_spec {α : Type} [DecidableEq α] [Inhabited α] (a b : List α)
    (alo blo : Nat) : ∀ bi bj bs, alo ≤ bi → blo ≤ bj →
      alo ≤ (extendLeft a b alo blo bi bj bs).1 ∧
      blo ≤ (extendLeft a b alo blo bi bj bs).2.1 ∧
      (extendLeft a b alo blo bi bj bs).1 + (extendLeft a b alo blo bi bj bs).2.2 = bi + bs ∧
      (extendLeft a b alo blo bi bj bs).2.1 + (extendLeft a b alo blo bi bj bs).2.2 = bj + bs := by
  intro bi
  induction bi with
  | zero =>
    intro bj bs h1 h2
    exact ⟨h1, h2, rfl, rfl⟩
  | succ m ih =>
    intro bj bs h1 h2
    rw [extendLeft]
    split
    · rename_i hguard
      have := ih (bj - 1) (bs + 1) (by omega) (by omega)
      refine ⟨this.1, this.2.1, by omega, by omega⟩
    · exact ⟨h1, h2, rfl, rfl⟩

/-- The right extension loop only grows the size within the ranges. -/
theorem extendRightF_spec {α : Type} [DecidableEq α] [Inhabited α] (a b : List α)
    (ahi bhi bi bj : Nat) : ∀ fuel bs,
      bs ≤ extendRightF a b ahi bhi bi bj fuel bs ∧
      (bi + bs ≤ ahi → bi + extendRightF a b ahi bhi bi bj fuel bs ≤ ahi) ∧
      (bj + bs ≤ bhi → bj + extendRightF a b ahi bhi bi bj fuel bs ≤ bhi) := by
  intro fuel
  induction fuel with
  | zero => intro bs; exact ⟨le_rfl, fun h => h, fun h => h⟩
  | succ m ih =>
    intro bs
    rw [extendRightF]
    split
    · rename_i hguard
      have := ih (bs + 1)
      exact ⟨by omega, fun _ => this.2.1 (by omega), fun _ => this.2.2 (by omega)⟩
    · exact ⟨le_rfl, fun h => h, fun h => h⟩

/-- In a well-formed range, the found longest match lies inside the
range. -/
theorem flm_bounds {α : Type} [DecidableEq α] [Inhabited α] (a b : List α)
    (alo ahi blo bhi : Nat) (h1 : alo ≤ ahi) (h2 : blo ≤ bhi) :
    alo ≤ (find_longest_match a b alo ahi blo bhi).1 ∧
      blo ≤ (find_longest_match a b alo ahi blo bhi).2.1 ∧
      (find_longest_match a b alo ahi blo bhi).1 +
        (find_longest_match a b alo ahi blo bhi).2.2 ≤ ahi ∧
      (find_longest_match a b alo ahi blo bhi).2.1 +
        (find_longest_match a b alo ahi blo bhi).2.2 ≤ bhi := by
  have hdp := flmDP_bounds a b alo ahi blo bhi h1 h2
  unfold find_longest_match
  simp only
  set p := flmDP a b alo ahi blo bhi with hp
  have hel := extendLeft_spec a b alo blo p.1 p.2.1 p.2.2 hdp.1 hdp.2.1
  set q := extendLeft a b alo blo p.1 p.2.1 p.2.2 with hq
  have her := extendRightF_spec a b ahi bhi q.1 q.2.1 (ahi - (q.1 + q.2.2)) q.2.2
  exact ⟨hel.1, hel.2.1, her.2.1 (by omega), her.2.2 (by omega)⟩

/-- Degenerate original range: the dynamic program returns the empty
block at the start of the ranges. -/
theorem flmDP_degen_left {α : Type} [DecidableEq α] [Inhabited α] (a b : List α)
    (alo ahi blo bhi : Nat) (hd : ahi ≤ alo) : flmDP a b alo ahi blo bhi = (alo, blo, 0) := by
  unfold flmDP
  rw [Nat.sub_eq_zero_of_le hd]
  rfl

/-- Degenerate revised range: no position passes the `[blo, bhi)` filter,
so the best block never moves. -/
theorem flmDP_degen_right {α : Type} [DecidableEq α] [Inhabited α] (a b : List α)
    (alo ahi blo bhi : Nat) (hd : bhi ≤ blo) : flmDP a b alo ahi blo bhi = (alo, blo, 0) := by
  unfold flmDP
  have main := foldl_inv (fun (st : FlmSt) => st.2 = (alo, blo, 0))
    (flmRow a b blo bhi) (List.range' alo (ahi - alo)) ((fun _ => 0), alo, blo, 0)
    rfl
    (by
      intro st i _ hp
      unfold flmRow
      have hnil : ((b2j b (a.getD i default)).filter
          fun j => decide (blo ≤ j) && decide (j < bhi)) = [] := by
        apply List.filter_eq_nil_iff.mpr
        intro j _
        simp only [Bool.and_eq_true, decide_eq_true_eq, not_and]
        intro hbl
        omega
      simp only [hnil]
      exact hp)
  exact main

/-- `extendLeft` does nothing when the start of the block is already at
the left end of the range. -/
theorem extendLeft_refl {α : Type} [DecidableEq α] [Inhabited α] (a b : List α)
    (alo blo bj bs : Nat) : extendLeft a b alo blo alo bj bs = (alo, bj, bs) := by
  cases halo : alo with
  | zero => rfl
  | succ m =>
    rw [extendLeft]
    rw [if_neg]
    simp

/-- Degenerate ranges produce the empty match. -/
theorem flm_degen {α : Type} [DecidableEq α] [Inhabited α] (a b : List α)
    (alo ahi blo bhi : Nat) (hd : ahi ≤ alo ∨ bhi ≤ blo) :
    (find_longest_match a b alo ahi blo bhi).2.2 = 0 := by
  have hdp : flmDP a b alo ahi blo bhi = (alo, blo, 0) := by
    rcases hd with hd | hd
    · exact flmDP_degen_left a b alo ahi blo bhi hd
    · exact flmDP_degen_right a b alo ahi blo bhi hd
  unfold find_longest_match
  rw [hdp]
  simp only
  rw [extendLeft_refl]
  simp only
  rcases hd with hd | hd
  · have hz : ahi - (alo + 0) = 0 := by omega
    rw [hz]
    rfl
  · cases hfuel : ahi - (alo + 0) with
    | zero => rfl
    | succ m =>
      rw [extendRightF]
      rw [if_neg]
      simp only [Bool.not_eq_true, not_and]
      intro _ h
      omega

/-- A nonempty longest match lies inside the requested ranges,
unconditionally. -/
theorem flm_k_bounds {α : Type} [DecidableEq α] [Inhabited α] (a b : List α)
    (alo ahi blo bhi : Nat)
    (hk : (find_longest_match a b alo ahi blo bhi).2.2 ≠ 0) :
    alo ≤ (find_longest_match a b alo ahi blo bhi).1 ∧
      blo ≤ (find_longest_match a b alo ahi blo bhi).2.1 ∧
      (find_longest_match a b alo ahi blo bhi).1 +
        (find_longest_match a b alo ahi blo bhi).2.2 ≤ ahi ∧
      (find_longest_match a b alo ahi blo bhi).2.1 +
        (find_longest_match a b alo ahi blo bhi).2.2 ≤ bhi := by
  by_cases h1 : alo ≤ ahi
  · by_cases h2 : blo ≤ bhi
    · exact flm_bounds a b alo ahi blo bhi h1 h2
    · exact absurd (flm_degen a b alo ahi blo bhi (Or.inr (by omega))) hk
  · exact absurd (flm_degen a b alo ahi blo bhi (Or.inl (by omega))) hk

/-! ### The matching blocks form a monotone chain -/

/-- The blocks, read left to right from position `(i, j)`, stay monotone
and inside `(hi, hj)`. -/
def ChainLe : Nat → Nat → List (Nat × Nat × Nat) → Nat → Nat → Prop
  | i, j, [], hi, hj => i ≤ hi ∧ j ≤ hj
  | i, j, (ai, bj, k) :: rest, hi, hj => i ≤ ai ∧ j ≤ bj ∧ ChainLe (ai + k) (bj + k) rest hi hj

/-- Like `ChainLe`, but the traversal ends exactly at `(hi, hj)` (the
shape of `get_matching_blocks` output thanks to its sentinel block). -/
def ChainExact : Nat → Nat → List (Nat × Nat × Nat) → Nat → Nat → Prop
  | i, j, [], hi, hj => i = hi ∧ j = hj
  | i, j, (ai, bj, k) :: rest, hi, hj => i ≤ ai ∧ j ≤ bj ∧ ChainExact (ai + k) (bj + k) rest hi hj

theorem chainLe_mono {l : List (Nat × Nat × Nat)} {i j i' j' hi hj : Nat}
    (h1 : i' ≤ i) (h2 : j' ≤ j) (h : ChainLe i j l hi hj) : ChainLe i' j' l hi hj := by
  cases l with
  | nil => exact ⟨le_trans h1 h.1, le_trans h2 h.2⟩
  | cons p rest =>
    obtain ⟨ai, bj, k⟩ := p
    exact ⟨le_trans h1 h.1, le_trans h2 h.2.1, h.2.2⟩

theorem chainLe_append {l₁ l₂ : List (Nat × Nat × Nat)} {i j m₁ m₂ hi hj : Nat}
    (h1 : ChainLe i j l₁ m₁ m₂) (h2 : ChainLe m₁ m₂ l₂ hi hj) :
    ChainLe i j (l₁ ++ l₂) hi hj := by
  induction l₁ generalizing i j with
  | nil => exact chainLe_mono h1.1 h1.2 h2
  | cons p rest ih =>
    obtain ⟨ai, bj, k⟩ := p
    exact ⟨h1.1, h1.2.1, ih h1.2.2⟩

/-- The recursively found matching blocks form a monotone chain inside
the requested ranges. -/
theorem matchingBlocksF_chainLe {α : Type} [DecidableEq α] [Inhabited α] (a b : List α) :
    ∀ (fuel alo ahi blo bhi : Nat), alo ≤ ahi → blo ≤ bhi →
      ChainLe alo blo (matchingBlocksF a b fuel alo ahi blo bhi) ahi bhi := by
  intro fuel
  induction fuel with
  | zero => intro alo ahi blo bhi h1 h2; exact ⟨h1, h2⟩
  | succ f ih =>
    intro alo ahi blo bhi h1 h2
    rw [matchingBlocksF]
    by_cases hk : (find_longest_match a b alo ahi blo bhi).2.2 = 0
    · rw [if_pos hk]; exact ⟨h1, h2⟩
    · rw [if_neg hk]
      have hb := flm_k_bounds a b alo ahi blo bhi hk
      have hleft := ih alo (find_longest_match a b alo ahi blo bhi).1 blo
        (find_longest_match a b alo ahi blo bhi).2.1 hb.1 hb.2.1
      have hright := ih ((find_longest_match a b alo ahi blo bhi).1 +
          (find_longest_match a b alo ahi blo bhi).2.2) ahi
        ((find_longest_match a b alo ahi blo bhi).2.1 +
          (find_longest_match a b alo ahi blo bhi).2.2) bhi hb.2.2.1 hb.2.2.2
      exact chainLe_append hleft ⟨le_rfl, le_rfl, hright⟩

/-- Collapsing adjacent blocks preserves the chain shape. -/
theorem collapseBlocks_chainLe :
    ∀ (bs : List (Nat × Nat × Nat)) (i1 j1 k1 hi hj : Nat),
      ChainLe (i1 + k1) (j1 + k1) bs hi hj →
      ChainLe i1 j1 (collapseBlocks i1 j1 k1 bs) hi hj := by
  intro bs
  induction bs with
  | nil =>
    intro i1 j1 k1 hi hj h
    obtain ⟨ha, hb⟩ := h
    rw [collapseBlocks]
    by_cases hk : k1 ≠ 0
    · rw [if_pos hk]
      exact ⟨le_rfl, le_rfl, ha, hb⟩
    · rw [if_neg hk]
      exact ⟨by omega, by omega⟩
  | cons p rest ih =>
    obtain ⟨i2, j2, k2⟩ := p
    intro i1 j1 k1 hi hj h
    obtain ⟨ha, hb, htl⟩ := h
    rw [collapseBlocks]
    by_cases hadj : i1 + k1 = i2 ∧ j1 + k1 = j2
    · rw [if_pos hadj]
      apply ih
      have he1 : i1 + (k1 + k2) = i2 + k2 := by omega
      have he2 : j1 + (k1 + k2) = j2 + k2 := by omega
      rw [he1, he2]
      exact htl
    · rw [if_neg hadj]
      have htail := ih i2 j2 k2 hi hj htl
      by_cases hk : k1 ≠ 0
      · rw [if_pos hk]
        exact ⟨le_rfl, le_rfl, chainLe_mono ha hb htail⟩
      · rw [if_neg hk]
        simp only [List.nil_append]
        have hk0 : k1 = 0 := by omega
        exact chainLe_mono (show i1 ≤ i2 by omega) (show j1 ≤ j2 by omega) htail

/-- Appending the sentinel turns a `ChainLe` into a `ChainExact`. -/
theorem chainLe_sentinel {bs : List (Nat × Nat × Nat)} {i j hi hj : Nat}
    (h : ChainLe i j bs hi hj) : ChainExact i j (bs ++ [(hi, hj, 0)]) hi hj := by
  induction bs generalizing i j with
  | nil => exact ⟨h.1, h.2, rfl, rfl⟩
  | cons p rest ih =>
    obtain ⟨ai, bj, k⟩ := p
    exact ⟨h.1, h.2.1, ih h.2.2⟩

theorem chainExact_le {bs : List (Nat × Nat × Nat)} :
    ∀ {i j hi hj : Nat}, ChainExact i j bs hi hj → i ≤ hi ∧ j ≤ hj := by
  induction bs with
  | nil =>
    intro i j hi hj h
    obtain ⟨h1, h2⟩ := h
    omega
  | cons p rest ih =>
    obtain ⟨ai, bj, k⟩ := p
    intro i j hi hj h
    obtain ⟨h1, h2, h3⟩ := h
    have := ih h3
    omega

/-- The matching blocks of the matcher, traversed from `(0, 0)`, are a
monotone chain ending exactly at `(la, lb)`. -/
theorem get_matching_blocks_chain {α : Type} [DecidableEq α] [Inhabited α] (a b : List α) :
    ChainExact 0 0 (get_matching_blocks a b) a.length b.length := by
  unfold get_matching_blocks
  apply chainLe_sentinel
  have h := matchingBlocksF_chainLe a b (a.length + 1) 0 a.length 0 b.length
    (Nat.zero_le _) (Nat.zero_le _)
  have h0 := collapseBlocks_chainLe
    (matchingBlocksF a b (a.length + 1) 0 a.length 0 b.length) 0 0 0
    a.length b.length (by simpa using h)
  exact h0

/-! ### Slices and range helpers -/

/-- The Python slice `l[i:j]`. -/
def sliceL {α : Type} (l : List α) (i j : Nat) : List α := (l.drop i).take (j - i)

theorem sliceL_append {α : Type} (l : List α) {i m j : Nat} (h1 : i ≤ m) (h2 : m ≤ j) :
    sliceL l i j = sliceL l i m ++ sliceL l m j := by
  unfold sliceL
  rw [show j - i = (m - i) + (j - m) by omega, List.take_add, List.drop_drop,
    show i + (m - i) = m by omega]

theorem sliceL_self {α : Type} (l : List α) : sliceL l 0 l.length = l := by
  simp [sliceL]

theorem sliceL_refl {α : Type} (l : List α) (i : Nat) : sliceL l i i = [] := by
  simp [sliceL]

theorem getD_eq_get {α : Type} (l : List α) (d : α) {n : Nat} (h : n < l.length) :
    l.getD n d = l.get ⟨n, h⟩ := by
  rw [List.getD_eq_getElem?_getD, List.getElem?_eq_getElem h]
  rfl

theorem range_map_getD {α β : Type} (f : α → β) (d : α) :
    ∀ l : List α, (List.range l.length).map (fun i => f (l.getD i d)) = l.map f := by
  intro l
  induction l with
  | nil => rfl
  | cons a t ih =>
    simp only [List.length_cons, List.range_succ_eq_map, List.map_cons, List.map_map,
      Function.comp_def, List.getD_cons_zero, List.getD_cons_succ]
    rw [ih]

theorem zip_range' (a b n : Nat) :
    (List.range' a n).zip (List.range' b n) = (List.range n).map fun t => (a + t, b + t) := by
  rw [List.range'_eq_map_range, List.range'_eq_map_range, List.zip_map']

/-- A slice paired positionally against records generated from
`List.range`. -/
theorem forall₂_slice_map {α β : Type} (rel : α → β → Prop) (l : List α) (d : α) :
    ∀ (n i1 : Nat) (g : Nat → β), i1 + n ≤ l.length →
      (∀ t, t < n → rel (l.getD (i1 + t) d) (g t)) →
      List.Forall₂ rel (sliceL l i1 (i1 + n)) ((List.range n).map g) := by
  intro n
  induction n with
  | zero =>
    intro i1 g _ _
    simp only [Nat.add_zero, sliceL_refl, List.range_zero, List.map_nil]
    exact List.Forall₂.nil
  | succ m ih =>
    intro i1 g hlen hrel
    have hi1 : i1 < l.length := by omega
    have hslice : sliceL l i1 (i1 + (m + 1)) = l.get ⟨i1, hi1⟩ :: sliceL l (i1 + 1) (i1 + 1 + m) := by
      unfold sliceL
      rw [List.drop_eq_getElem_cons hi1]
      rw [show i1 + (m + 1) - i1 = m + 1 by omega, List.take_succ_cons,
        show i1 + 1 + m - (i1 + 1) = m by omega]
      rfl
    rw [hslice, List.range_succ_eq_map, List.map_cons, List.map_map]
    refine List.Forall₂.cons ?_ ?_
    · have h0 := hrel 0 (by omega)
      rw [Nat.add_zero] at h0
      rwa [getD_eq_get l d hi1] at h0
    · have := ih (i1 + 1) (fun t => g (t + 1)) (by omega)
        (fun t ht => by
          have := hrel (t + 1) (by omega)
          rwa [show i1 + (t + 1) = i1 + 1 + t by omega] at this)
      simpa [Function.comp] using this

/-! ### Shape of the records of one opcode -/

theorem recordsOfOpcode_equal (o r : List String) (i1 i2 j1 j2 : Nat) :
    recordsOfOpcode o r ("equal", i1, i2, j1, j2) =
      ((List.range' i1 (i2 - i1)).zip (List.range' j1 (j2 - j1))).map fun ij =>
        ⟨"Same", o.getD ij.1 default, r.getD ij.2 default⟩ := by
  rfl

theorem recordsOfOpcode_replace (o r : List String) (i1 i2 j1 j2 : Nat) :
    recordsOfOpcode o r ("replace", i1, i2, j1, j2) =
      ((List.range (min (i2 - i1) (j2 - j1))).map fun k =>
        if pystrip (o.getD (i1 + k) default) = pystrip (r.getD (j1 + k) default) then
          ⟨"Same", escape (o.getD (i1 + k) default), escape (r.getD (j1 + k) default)⟩
        else
          ⟨"Modified",
            (highlight_differences (o.getD (i1 + k) default) (r.getD (j1 + k) default)).1,
            (highlight_differences (o.getD (i1 + k) default) (r.getD (j1 + k) default)).2⟩)
      ++ ((List.range' (min (i2 - i1) (j2 - j1)) ((i2 - i1) - min (i2 - i1) (j2 - j1))).map
          fun k => ⟨"Deleted", o.getD (i1 + k) default, "<Deleted>"⟩)
      ++ ((List.range' (min (i2 - i1) (j2 - j1)) ((j2 - j1) - min (i2 - i1) (j2 - j1))).map
          fun k => ⟨"Added", "<New>", r.getD (j1 + k) default⟩) := by
  rfl

theorem recordsOfOpcode_delete (o r : List String) (i1 i2 j1 j2 : Nat) :
    recordsOfOpcode o r ("delete", i1, i2, j1, j2) =
      (List.range' i1 (i2 - i1)).map fun i => ⟨"Deleted", o.getD i default, "<Deleted>"⟩ := by
  rfl

theorem recordsOfOpcode_insert (o r : List String) (i1 i2 j1 j2 : Nat) :
    recordsOfOpcode o r ("insert", i1, i2, j1, j2) =
      (List.range' j1 (j2 - j1)).map fun j => ⟨"Added", "<New>", r.getD j default⟩ := by
  rfl

/-! ### Coverage: the records consume both sequences exactly -/

/-- How an original-side record text may render its source paragraph:
verbatim, HTML-escaped, or as the original side of the highlighter. -/
def relOrig (p t : String) : Prop :=
  t = p ∨ t = escape p ∨ ∃ m, t = (highlight_differences p m).1

/-- How a revised-side record text may render its source paragraph. -/
def relRev (p t : String) : Prop :=
  t = p ∨ t = escape p ∨ ∃ m, t = (highlight_differences m p).2

/-- The original-side texts of the records that consume an original
paragraph (every record except the `Added` ones). -/
def origSide (recs : List ChangeRecord) : List String :=
  (recs.filter fun rec => rec.Status ≠ "Added").map fun rec => rec.Original

/-- The revised-side texts of the records that consume a revised
paragraph (every record except the `Deleted` ones). -/
def revSide (recs : List ChangeRecord) : List String :=
  (recs.filter fun rec => rec.Status ≠ "Deleted").map fun rec => rec.Revised

theorem origSide_append (x y : List ChangeRecord) :
    origSide (x ++ y) = origSide x ++ origSide y := by
  unfold origSide
  rw [List.filter_append, List.map_append]

theorem revSide_append (x y : List ChangeRecord) :
    revSide (x ++ y) = revSide x ++ revSide y := by
  unfold revSide
  rw [List.filter_append, List.map_append]

theorem origSide_keep {l : List ChangeRecord} (h : ∀ rec ∈ l, rec.Status ≠ "Added") :
    origSide l = l.map fun rec => rec.Original := by
  unfold origSide
  rw [List.filter_eq_self.mpr]
  intro rec hrec
  simpa using h rec hrec

theorem origSide_drop {l : List ChangeRecord} (h : ∀ rec ∈ l, rec.Status = "Added") :
    origSide l = [] := by
  unfold origSide
  rw [List.filter_eq_nil_iff.mpr, List.map_nil]
  intro rec hrec
  simpa using h rec hrec

theorem revSide_keep {l : List ChangeRecord} (h : ∀ rec ∈ l, rec.Status ≠ "Deleted") :
    revSide l = l.map fun rec => rec.Revised := by
  unfold revSide
  rw [List.filter_eq_self.mpr]
  intro rec hrec
  simpa using h rec hrec

theorem revSide_drop {l : List ChangeRecord} (h : ∀ rec ∈ l, rec.Status = "Deleted") :
    revSide l = [] := by
  unfold revSide
  rw [List.filter_eq_nil_iff.mpr, List.map_nil]
  intro rec hrec
  simpa using h rec hrec

theorem same_ne_added : ("Same" : String) ≠ "Added" := by decide

theorem modified_ne_added : ("Modified" : String) ≠ "Added" := by decide

theorem deleted_ne_added : ("Deleted" : String) ≠ "Added" := by decide

theorem same_ne_deleted : ("Same" : String) ≠ "Deleted" := by decide

theorem modified_ne_deleted : ("Modified" : String) ≠ "Deleted" := by decide

theorem added_ne_deleted : ("Added" : String) ≠ "Deleted" := by decide

/-- `origSide` over a mapped list whose records are never `Added`. -/
theorem origSide_map_keep {β : Type} (l : List β) (f : β → ChangeRecord)
    (h : ∀ x ∈ l, (f x).Status ≠ "Added") :
    origSide (l.map f) = l.map fun x => (f x).Original := by
  rw [origSide_keep (by
    intro rec hrec
    obtain ⟨t, ht, hrec2⟩ := List.mem_map.mp hrec
    rw [← hrec2]
    exact h t ht), List.map_map]
  rfl

/-- `origSide` over a mapped list of `Added` records. -/
theorem origSide_map_drop {β : Type} (l : List β) (f : β → ChangeRecord)
    (h : ∀ x ∈ l, (f x).Status = "Added") : origSide (l.map f) = [] := by
  apply origSide_drop
  intro rec hrec
  obtain ⟨t, ht, hrec2⟩ := List.mem_map.mp hrec
  rw [← hrec2]
  exact h t ht

/-- `revSide` over a mapped list whose records are never `Deleted`. -/
theorem revSide_map_keep {β : Type} (l : List β) (f : β → ChangeRecord)
    (h : ∀ x ∈ l, (f x).Status ≠ "Deleted") :
    revSide (l.map f) = l.map fun x => (f x).Revised := by
  rw [revSide_keep (by
    intro rec hrec
    obtain ⟨t, ht, hrec2⟩ := List.mem_map.mp hrec
    rw [← hrec2]
    exact h t ht), List.map_map]
  rfl

/-- `revSide` over a mapped list of `Deleted` records. -/
theorem revSide_map_drop {β : Type} (l : List β) (f : β → ChangeRecord)
    (h : ∀ x ∈ l, (f x).Status = "Deleted") : revSide (l.map f) = [] := by
  apply revSide_drop
  intro rec hrec
  obtain ⟨t, ht, hrec2⟩ := List.mem_map.mp hrec
  rw [← hrec2]
  exact h t ht

/-- A slice related pairwise to the kept original texts of records
generated over an index range. -/
theorem forall₂_origSide_range' (rel : String → String → Prop) (l : List String)
    (d : String) (s n i1 : Nat) (f : Nat → ChangeRecord) (hb : i1 + n ≤ l.length)
    (hst : ∀ t, t < n → (f (s + t)).Status ≠ "Added")
    (hrel : ∀ t, t < n → rel (l.getD (i1 + t) d) ((f (s + t)).Original)) :
    List.Forall₂ rel (sliceL l i1 (i1 + n)) (origSide ((List.range' s n).map f)) := by
  rw [List.range'_eq_map_range, List.map_map,
    origSide_map_keep _ _ (by
      intro x hx
      rw [List.mem_range] at hx
      exact hst x hx)]
  apply forall₂_slice_map rel l d n i1 _ hb
  intro t ht
  exact hrel t ht

theorem origSide_range'_drop (r : List String) (s n j1 : Nat) :
    origSide ((List.range' s n).map fun kk =>
      (⟨"Added", "<New>", r.getD (j1 + kk) default⟩ : ChangeRecord)) = [] := by
  apply origSide_map_drop
  intro x _
  rfl

/-- A slice related pairwise to the kept revised texts of records
generated over an index range. -/
theorem forall₂_revSide_range' (rel : String → String → Prop) (l : List String)
    (d : String) (s n i1 : Nat) (f : Nat → ChangeRecord) (hb : i1 + n ≤ l.length)
    (hst : ∀ t, t < n → (f (s + t)).Status ≠ "Deleted")
    (hrel : ∀ t, t < n → rel (l.getD (i1 + t) d) ((f (s + t)).Revised)) :
    List.Forall₂ rel (sliceL l i1 (i1 + n)) (revSide ((List.range' s n).map f)) := by
  rw [List.range'_eq_map_range, List.map_map,
    revSide_map_keep _ _ (by
      intro x hx
      rw [List.mem_range] at hx
      exact hst x hx)]
  apply forall₂_slice_map rel l d n i1 _ hb
  intro t ht
  exact hrel t ht

theorem revSide_range'_drop (o : List String) (s n i1 : Nat) :
    revSide ((List.range' s n).map fun kk =>
      (⟨"Deleted", o.getD (i1 + kk) default, "<Deleted>"⟩ : ChangeRecord)) = [] := by
  apply revSide_map_drop
  intro x _
  rfl

/-- Walking the opcodes of a chain-exact block list, the non-`Added`
records\' original texts render the remaining original paragraphs one to
one, in order. -/
theorem coverage_orig (o r : List String) :
    ∀ (bs : List (Nat × Nat × Nat)) (i j : Nat),
      ChainExact i j bs o.length r.length →
      List.Forall₂ relOrig (sliceL o i o.length)
        (origSide ((get_opcodes_aux i j bs).flatMap (recordsOfOpcode o r))) := by
  intro bs
  induction bs with
  | nil =>
    intro i j h
    obtain ⟨h1, h2⟩ := h
    subst h1
    rw [get_opcodes_aux, List.flatMap_nil, sliceL_refl]
    exact List.Forall₂.nil
  | cons p rest ih =>
    obtain ⟨ai, bj, k⟩ := p
    intro i j h
    obtain ⟨h1, h2, h3⟩ := h
    have hle := chainExact_le h3
    have haik : ai + k ≤ o.length := hle.1
    have hbjk : bj + k ≤ r.length := hle.2
    rw [get_opcodes_aux, List.flatMap_append, List.flatMap_append,
      origSide_append, origSide_append,
      sliceL_append o (show i ≤ ai + k by omega) (show ai + k ≤ o.length by omega),
      sliceL_append o (show i ≤ ai by omega) (show ai ≤ ai + k by omega)]
    have piece3 := ih (ai + k) (bj + k) h3
    have piece2 : List.Forall₂ relOrig (sliceL o ai (ai + k))
        (origSide ((if k ≠ 0 then [("equal", ai, ai + k, bj, bj + k)] else
          ([] : List (String × Nat × Nat × Nat × Nat))).flatMap (recordsOfOpcode o r))) := by
      by_cases hk : k ≠ 0
      · rw [if_pos hk, List.flatMap_cons, List.flatMap_nil, List.append_nil,
          recordsOfOpcode_equal,
          show ai + k - ai = k by omega, show bj + k - bj = k by omega, zip_range',
          List.map_map, List.range_eq_range']
        apply forall₂_origSide_range' relOrig o default 0 k ai _ (by omega)
        · intro t ht
          exact same_ne_added
        · intro t ht
          refine Or.inl ?_
          dsimp only [Function.comp_apply]
          rw [Nat.zero_add]
      · rw [if_neg hk]
        have hk0 : k = 0 := by omega
        subst hk0
        rw [List.flatMap_nil, Nat.add_zero, sliceL_refl]
        exact List.Forall₂.nil
    have piece1 : List.Forall₂ relOrig (sliceL o i ai)
        (origSide ((if i < ai ∧ j < bj then [("replace", i, ai, j, bj)]
          else if i < ai then [("delete", i, ai, j, bj)]
          else if j < bj then [("insert", i, ai, j, bj)]
          else ([] : List (String × Nat × Nat × Nat × Nat))).flatMap
            (recordsOfOpcode o r))) := by
      by_cases hrep : i < ai ∧ j < bj
      · rw [if_pos hrep, List.flatMap_cons, List.flatMap_nil, List.append_nil,
          recordsOfOpcode_replace, origSide_append, origSide_append,
          origSide_range'_drop, List.append_nil, List.range_eq_range',
          sliceL_append o
            (show i ≤ i + min (ai - i) (bj - j) by omega)
            (show i + min (ai - i) (bj - j) ≤ ai by omega)]
        apply List.rel_append
        · apply forall₂_origSide_range' relOrig o default 0 (min (ai - i) (bj - j)) i _
            (by omega)
          · intro t ht
            dsimp only
            by_cases hc : pystrip (o.getD (i + (0 + t)) default) =
                pystrip (r.getD (j + (0 + t)) default)
            · rw [if_pos hc]; exact same_ne_added
            · rw [if_neg hc]; exact modified_ne_added
          · intro t ht
            dsimp only
            rw [show i + (0 + t) = i + t by omega, show j + (0 + t) = j + t by omega]
            by_cases hc : pystrip (o.getD (i + t) default) = pystrip (r.getD (j + t) default)
            · rw [if_pos hc]
              exact Or.inr (Or.inl rfl)
            · rw [if_neg hc]
              refine Or.inr (Or.inr ⟨r.getD (j + t) default, ?_⟩)
              with_reducible rfl
        · have hslice : sliceL o (i + min (ai - i) (bj - j)) ai =
              sliceL o (i + min (ai - i) (bj - j))
                (i + min (ai - i) (bj - j) + ((ai - i) - min (ai - i) (bj - j))) := by
            rw [show i + min (ai - i) (bj - j) + ((ai - i) - min (ai - i) (bj - j)) = ai
              by omega]
          rw [hslice]
          apply forall₂_origSide_range' relOrig o default (min (ai - i) (bj - j))
            ((ai - i) - min (ai - i) (bj - j)) (i + min (ai - i) (bj - j)) _ (by omega)
          · intro t ht
            exact deleted_ne_added
          · intro t ht
            refine Or.inl ?_
            rw [show i + (min (ai - i) (bj - j) + t) =
              i + min (ai - i) (bj - j) + t by omega]
      · by_cases hdel : i < ai
        · rw [if_neg hrep, if_pos hdel, List.flatMap_cons, List.flatMap_nil,
            List.append_nil, recordsOfOpcode_delete]
          have hslice : sliceL o i ai = sliceL o i (i + (ai - i)) := by
            rw [show i + (ai - i) = ai by omega]
          rw [hslice]
          apply forall₂_origSide_range' relOrig o default i (ai - i) i _ (by omega)
          · intro t ht
            exact deleted_ne_added
          · intro t ht
            exact Or.inl rfl
        · have hia : ai = i := by omega
          by_cases hins : j < bj
          · rw [if_neg hrep, if_neg hdel, if_pos hins, List.flatMap_cons, List.flatMap_nil,
              List.append_nil, recordsOfOpcode_insert,
              origSide_map_drop _ _ (fun x _ => rfl), hia, sliceL_refl]
            exact List.Forall₂.nil
          · rw [if_neg hrep, if_neg hdel, if_neg hins, List.flatMap_nil, hia, sliceL_refl]
            exact List.Forall₂.nil
    exact List.rel_append (List.rel_append piece1 piece2) piece3

/-- Walking the opcodes of a chain-exact block list, the non-`Deleted`
records' revised texts render the remaining revised paragraphs one to
one, in order. -/
theorem coverage_rev (o r : List String) :
    ∀ (bs : List (Nat × Nat × Nat)) (i j : Nat),
      ChainExact i j bs o.length r.length →
      List.Forall₂ relRev (sliceL r j r.length)
        (revSide ((get_opcodes_aux i j bs).flatMap (recordsOfOpcode o r))) := by
  intro bs
  induction bs with
  | nil =>
    intro i j h
    obtain ⟨h1, h2⟩ := h
    subst h2
    rw [get_opcodes_aux, List.flatMap_nil, sliceL_refl]
    exact List.Forall₂.nil
  | cons p rest ih =>
    obtain ⟨ai, bj, k⟩ := p
    intro i j h
    obtain ⟨h1, h2, h3⟩ := h
    have hle := chainExact_le h3
    have haik : ai + k ≤ o.length := hle.1
    have hbjk : bj + k ≤ r.length := hle.2
    rw [get_opcodes_aux, List.flatMap_append, List.flatMap_append,
      revSide_append, revSide_append,
      sliceL_append r (show j ≤ bj + k by omega) (show bj + k ≤ r.length by omega),
      sliceL_append r (show j ≤ bj by omega) (show bj ≤ bj + k by omega)]
    have piece3 := ih (ai + k) (bj + k) h3
    have piece2 : List.Forall₂ relRev (sliceL r bj (bj + k))
        (revSide ((if k ≠ 0 then [("equal", ai, ai + k, bj, bj + k)] else
          ([] : List (String × Nat × Nat × Nat × Nat))).flatMap (recordsOfOpcode o r))) := by
      by_cases hk : k ≠ 0
      · rw [if_pos hk, List.flatMap_cons, List.flatMap_nil, List.append_nil,
          recordsOfOpcode_equal,
          show ai + k - ai = k by omega, show bj + k - bj = k by omega, zip_range',
          List.map_map, List.range_eq_range']
        apply forall₂_revSide_range' relRev r default 0 k bj _ (by omega)
        · intro t ht
          exact same_ne_deleted
        · intro t ht
          refine Or.inl ?_
          dsimp only [Function.comp_apply]
          rw [Nat.zero_add]
      · rw [if_neg hk]
        have hk0 : k = 0 := by omega
        subst hk0
        rw [List.flatMap_nil, Nat.add_zero, sliceL_refl]
        exact List.Forall₂.nil
    have piece1 : List.Forall₂ relRev (sliceL r j bj)
        (revSide ((if i < ai ∧ j < bj then [("replace", i, ai, j, bj)]
          else if i < ai then [("delete", i, ai, j, bj)]
          else if j < bj then [("insert", i, ai, j, bj)]
          else ([] : List (String × Nat × Nat × Nat × Nat))).flatMap
            (recordsOfOpcode o r))) := by
      by_cases hrep : i < ai ∧ j < bj
      · rw [if_pos hrep, List.flatMap_cons, List.flatMap_nil, List.append_nil,
          recordsOfOpcode_replace, revSide_append, revSide_append,
          revSide_range'_drop, List.append_nil, List.range_eq_range',
          sliceL_append r
            (show j ≤ j + min (ai - i) (bj - j) by omega)
            (show j + min (ai - i) (bj - j) ≤ bj by omega)]
        apply List.rel_append
        · apply forall₂_revSide_range' relRev r default 0 (min (ai - i) (bj - j)) j _
            (by omega)
          · intro t ht
            dsimp only
            by_cases hc : pystrip (o.getD (i + (0 + t)) default) =
                pystrip (r.getD (j + (0 + t)) default)
            · rw [if_pos hc]; exact same_ne_deleted
            · rw [if_neg hc]; exact modified_ne_deleted
          · intro t ht
            dsimp only
            rw [show i + (0 + t) = i + t by omega, show j + (0 + t) = j + t by omega]
            by_cases hc : pystrip (o.getD (i + t) default) = pystrip (r.getD (j + t) default)
            · rw [if_pos hc]
              exact Or.inr (Or.inl rfl)
            · rw [if_neg hc]
              refine Or.inr (Or.inr ⟨o.getD (i + t) default, ?_⟩)
              with_reducible rfl
        · have hslice : sliceL r (j + min (ai - i) (bj - j)) bj =
              sliceL r (j + min (ai - i) (bj - j))
                (j + min (ai - i) (bj - j) + ((bj - j) - min (ai - i) (bj - j))) := by
            rw [show j + min (ai - i) (bj - j) + ((bj - j) - min (ai - i) (bj - j)) = bj
              by omega]
          rw [hslice]
          apply forall₂_revSide_range' relRev r default (min (ai - i) (bj - j))
            ((bj - j) - min (ai - i) (bj - j)) (j + min (ai - i) (bj - j)) _ (by omega)
          · intro t ht
            exact added_ne_deleted
          · intro t ht
            refine Or.inl ?_
            rw [show j + (min (ai - i) (bj - j) + t) =
              j + min (ai - i) (bj - j) + t by omega]
      · by_cases hdel : i < ai
        · have hjb : bj = j := by omega
          rw [if_neg hrep, if_pos hdel, List.flatMap_cons, List.flatMap_nil,
            List.append_nil, recordsOfOpcode_delete,
            revSide_map_drop _ _ (fun x _ => rfl), hjb, sliceL_refl]
          exact List.Forall₂.nil
        · by_cases hins : j < bj
          · rw [if_neg hrep, if_neg hdel, if_pos hins, List.flatMap_cons, List.flatMap_nil,
              List.append_nil, recordsOfOpcode_insert]
            have hslice : sliceL r j bj = sliceL r j (j + (bj - j)) := by
              rw [show j + (bj - j) = bj by omega]
            rw [hslice]
            apply forall₂_revSide_range' relRev r default j (bj - j) j _ (by omega)
            · intro t ht
              exact added_ne_deleted
            · intro t ht
              exact Or.inl rfl
          · have hjb : bj = j := by omega
            rw [if_neg hrep, if_neg hdel, if_neg hins, List.flatMap_nil, hjb, sliceL_refl]
            exact List.Forall₂.nil
    exact List.rel_append (List.rel_append piece1 piece2) piece3

/-! ### Comparing a sequence with itself -/

theorem mem_b2jRaw {α : Type} [DecidableEq α] [Inhabited α] {b : List α} {x : α} {j : Nat} :
    j ∈ b2jRaw b x ↔ j < b.length ∧ b.getD j default = x := by
  unfold b2jRaw
  rw [List.mem_filter, List.mem_range]
  simp

theorem mem_b2j_lt {α : Type} [DecidableEq α] [Inhabited α] {b : List α} {x : α} {j : Nat}
    (h : j ∈ b2j b x) : j < b.length := by
  simp only [b2j] at h
  split at h
  · simp at h
  · exact (mem_b2jRaw.mp h).1

theorem mem_b2j_getD {α : Type} [DecidableEq α] [Inhabited α] {b : List α} {x : α} {j : Nat}
    (h : j ∈ b2j b x) : b.getD j default = x := by
  simp only [b2j] at h
  split at h
  · simp at h
  · exact (mem_b2jRaw.mp h).2

/-- Purging is by value, so any member of a position list is itself a
diagonal member of the map. -/
theorem mem_b2j_self {α : Type} [DecidableEq α] [Inhabited α] {b : List α} {x : α} {j : Nat}
    (h : j ∈ b2j b x) : j ∈ b2j b (b.getD j default) := by
  rwa [mem_b2j_getD h]

theorem self_mem_b2j {α : Type} [DecidableEq α] [Inhabited α] {b : List α} {r : Nat}
    (hr : r < b.length) (hne : b2j b (b.getD r default) ≠ []) :
    r ∈ b2j b (b.getD r default) := by
  simp only [b2j] at hne ⊢
  split at hne
  · simp at hne
  · rename_i hcond
    rw [if_neg hcond]
    exact mem_b2jRaw.mpr ⟨hr, rfl⟩

theorem range_filter_decomp (n r : Nat) (p : Nat → Bool) (hr : r < n) (hp : p r = true) :
    (List.range n).filter p =
      ((List.range r).filter p) ++ r :: ((List.range' (r + 1) (n - (r + 1))).filter p) := by
  have hsplit : List.range n = List.range r ++ r :: List.range' (r + 1) (n - (r + 1)) := by
    rw [List.range_eq_range', List.range_eq_range']
    have h1 : List.range' 0 r ++ List.range' r (n - r) = List.range' 0 n := by
      have := List.range'_append 0 r (n - r) 1
      rw [show 0 + 1 * r = r by omega] at this
      rw [this, show n - r + r = n by omega]
    rw [← h1]
    congr 1
    rw [show n - r = (n - (r + 1)) + 1 by omega, List.range'_succ]
  rw [hsplit, List.filter_append, List.filter_cons_of_pos hp]

/-- Decomposition of a position list around its diagonal member. -/
theorem b2j_decomp {α : Type} [DecidableEq α] [Inhabited α] (b : List α) (r : Nat)
    (hr : r < b.length) (hmem : r ∈ b2j b (b.getD r default)) :
    ∃ pre post, b2j b (b.getD r default) = pre ++ r :: post ∧
      (∀ q ∈ pre, q < r) ∧ (∀ q ∈ post, r < q) := by
  have hraw : b2j b (b.getD r default) = b2jRaw b (b.getD r default) := by
    simp only [b2j] at hmem ⊢
    split at hmem
    · simp at hmem
    · rename_i hcond
      rw [if_neg hcond]
  rw [hraw]
  unfold b2jRaw
  refine ⟨(List.range r).filter fun j => decide (b.getD j default = b.getD r default),
    (List.range' (r + 1) (b.length - (r + 1))).filter
      fun j => decide (b.getD j default = b.getD r default), ?_, ?_, ?_⟩
  · exact range_filter_decomp b.length r _ hr (by simp)
  · intro q hq
    have := (List.mem_filter.mp hq).1
    exact List.mem_range.mp this
  · intro q hq
    have := (List.mem_filter.mp hq).1
    rw [List.mem_range'] at this
    obtain ⟨t, _, rfl⟩ := this
    omega

/-- The diagonal run length: the number of consecutive positions ending
at `i` whose values all survive the popularity purge.  On identical
sequences the dynamic program's `j2len` column `i` equals this run. -/
def diagRun {α : Type} [DecidableEq α] [Inhabited α] (b : List α) : Nat → Nat
  | 0 => if 0 ∈ b2j b (b.getD 0 default) then 1 else 0
  | i + 1 => if (i + 1) ∈ b2j b (b.getD (i + 1) default) then diagRun b i + 1 else 0

theorem diagRun_of_mem {α : Type} [DecidableEq α] [Inhabited α] {b : List α} {i : Nat}
    (h : i ∈ b2j b (b.getD i default)) :
    diagRun b i = (if i = 0 then 0 else diagRun b (i - 1)) + 1 := by
  cases i with
  | zero =>
    show (if 0 ∈ b2j b (b.getD 0 default) then 1 else 0) =
      (if (0 : Nat) = 0 then 0 else diagRun b (0 - 1)) + 1
    rw [if_pos h, if_pos rfl]
  | succ m =>
    show (if (m + 1) ∈ b2j b (b.getD (m + 1) default) then diagRun b m + 1 else 0) =
      (if m + 1 = 0 then 0 else diagRun b (m + 1 - 1)) + 1
    rw [if_pos h, if_neg (Nat.succ_ne_zero m), Nat.succ_sub_one]

theorem diagRun_of_not_mem {α : Type} [DecidableEq α] [Inhabited α] {b : List α} {i : Nat}
    (h : i ∉ b2j b (b.getD i default)) : diagRun b i = 0 := by
  cases i with
  | zero =>
    show (if 0 ∈ b2j b (b.getD 0 default) then 1 else 0) = 0
    rw [if_neg h]
  | succ m =>
    show (if (m + 1) ∈ b2j b (b.getD (m + 1) default) then diagRun b m + 1 else 0) = 0
    rw [if_neg h]

/-- On identical sequences, the best block found by the dynamic program
lies on the diagonal: any off-diagonal match is dominated by a diagonal
match examined no later than it (purging removes whole values, so both
mirror positions survive together). -/
theorem flmDP_diag {α : Type} [DecidableEq α] [Inhabited α] (b : List α) :
    (flmDP b b 0 b.length 0 b.length).1 = (flmDP b b 0 b.length 0 b.length).2.1 := by
  have main := foldl_range'_inv
    (fun (r : Nat) (st : FlmSt) =>
      st.2.1 = st.2.2.1 ∧
      (∀ x, st.1 x ≤ if r = 0 then 0 else diagRun b (min (r - 1) x)) ∧
      (∀ r1, r1 + 1 = r → st.1 r1 = diagRun b r1) ∧
      (∀ r', r' < r → diagRun b r' ≤ st.2.2.2))
    (flmRow b b 0 b.length) (b.length - 0) 0 ((fun _ => 0), 0, 0, 0)
    ⟨rfl, fun x => by simp, fun r1 hr1 => by omega, fun r' hr' => by omega⟩
    (by
      intro i st hi1 hi2 hp
      obtain ⟨hpd, hpb, hpe, hpv⟩ := hp
      simp only [flmRow]
      have hfilter : ((b2j b (b.getD i default)).filter
          fun j => decide (0 ≤ j) && decide (j < b.length)) = b2j b (b.getD i default) := by
        apply List.filter_eq_self.mpr
        intro j hj
        have := mem_b2j_lt hj
        simp only [Bool.and_eq_true, decide_eq_true_eq]
        exact ⟨Nat.zero_le j, this⟩
      rw [hfilter]
      by_cases hb2 : b2j b (b.getD i default) = []
      · rw [hb2]
        have hdia : diagRun b i = 0 :=
          diagRun_of_not_mem (by rw [hb2]; exact List.not_mem_nil i)
        refine ⟨hpd, fun x => Nat.zero_le _, ?_, ?_⟩
        · intro r1 hr1
          have hri : r1 = i := by omega
          subst hri
          exact hdia.symm
        · intro r' hr'
          by_cases hri : r' = i
          · subst hri
            rw [hdia]
            exact Nat.zero_le _
          · exact hpv r' (by omega)
      · have hin : i < b.length := by omega
        have hmem : i ∈ b2j b (b.getD i default) := self_mem_b2j hin hb2
        obtain ⟨pre, post, hdec, hpre, hpost⟩ := b2j_decomp b i hin hmem
        have hdiaI : diagRun b i = (if i = 0 then 0 else diagRun b (i - 1)) + 1 :=
          diagRun_of_mem hmem
        have hKi : (if i = 0 then 0 else st.1 (i - 1)) + 1 = diagRun b i := by
          by_cases hi0 : i = 0
          · rw [if_pos hi0]
            have hd2 := hdiaI
            rw [if_pos hi0] at hd2
            omega
          · rw [if_neg hi0]
            have hd2 := hdiaI
            rw [if_neg hi0] at hd2
            rw [hpe (i - 1) (by omega)]
            omega
        rw [hdec, List.foldl_append, List.foldl_cons]
        have hCstep : ∀ (s' : FlmSt) (j : Nat), j ∈ post →
            (s'.2.1 = s'.2.2.1 ∧ (∀ x, s'.1 x ≤ diagRun b (min i x)) ∧
              s'.1 i = diagRun b i ∧ st.2.2.2 ≤ s'.2.2.2 ∧ diagRun b i ≤ s'.2.2.2) →
            ((flmStep st.1 i s' j).2.1 = (flmStep st.1 i s' j).2.2.1 ∧
              (∀ x, (flmStep st.1 i s' j).1 x ≤ diagRun b (min i x)) ∧
              (flmStep st.1 i s' j).1 i = diagRun b i ∧
              st.2.2.2 ≤ (flmStep st.1 i s' j).2.2.2 ∧
              diagRun b i ≤ (flmStep st.1 i s' j).2.2.2) := by
          intro s' j hj hq
          obtain ⟨nj, bi2, bj2, bs2⟩ := s'
          obtain ⟨hq1, hq2, hq3, hq4, hq5⟩ := hq
          dsimp only at hq1 hq2 hq3 hq4 hq5
          have hji : i < j := hpost j hj
          have hjb : j ∈ b2j b (b.getD i default) := by
            rw [hdec]
            exact List.mem_append_right _ (List.mem_cons_of_mem _ hj)
          have hjNP := mem_b2j_self hjb
          unfold flmStep
          dsimp only
          set K := (if j = 0 then 0 else st.1 (j - 1)) + 1 with hK
          have hkd : K ≤ diagRun b i := by
            rw [hK, if_neg (by omega : ¬ j = 0)]
            by_cases hi0 : i = 0
            · have hb1 := hpb (j - 1)
              rw [if_pos hi0] at hb1
              have hd2 := hdiaI
              rw [if_pos hi0] at hd2
              omega
            · have hb1 := hpb (j - 1)
              rw [if_neg hi0] at hb1
              have hmin : min (i - 1) (j - 1) = i - 1 := by omega
              rw [hmin] at hb1
              have hd2 := hdiaI
              rw [if_neg hi0] at hd2
              omega
          rw [if_neg (by omega : ¬ bs2 < K)]
          refine ⟨hq1, fun x => ?_, ?_, hq4, hq5⟩
          · by_cases hx : x = j
            · simp only [hx, if_pos rfl]
              have hmin : min i j = i := by omega
              rw [hmin]
              exact hkd
            · simp only [if_neg hx]
              exact hq2 x
          · simp only [if_neg (by omega : ¬ i = j)]
            exact hq3
        have hBC : ∀ s : FlmSt, (∀ x, s.1 x ≤ diagRun b (min i x)) →
            s.2.1 = st.2.1 → s.2.2.1 = st.2.2.1 → s.2.2.2 = st.2.2.2 →
            ((List.foldl (flmStep st.1 i) (flmStep st.1 i s i) post).2.1 =
              (List.foldl (flmStep st.1 i) (flmStep st.1 i s i) post).2.2.1 ∧
            (∀ x, (List.foldl (flmStep st.1 i) (flmStep st.1 i s i) post).1 x ≤
              diagRun b (min i x)) ∧
            (List.foldl (flmStep st.1 i) (flmStep st.1 i s i) post).1 i = diagRun b i ∧
            st.2.2.2 ≤ (List.foldl (flmStep st.1 i) (flmStep st.1 i s i) post).2.2.2 ∧
            diagRun b i ≤ (List.foldl (flmStep st.1 i) (flmStep st.1 i s i) post).2.2.2) := by
          intro s hs1 hs2 hs3 hs4
          obtain ⟨nj, bi2, bj2, bs2⟩ := s
          dsimp only at hs1 hs2 hs3 hs4
          by_cases hup : bs2 < diagRun b i
          · have hmid : flmStep st.1 i (nj, bi2, bj2, bs2) i =
                ((fun x => if x = i then diagRun b i else nj x),
                  i + 1 - diagRun b i, i + 1 - diagRun b i, diagRun b i) := by
              unfold flmStep
              dsimp only
              rw [hKi, if_pos hup]
            rw [hmid]
            exact foldl_inv
              (fun (s' : FlmSt) => s'.2.1 = s'.2.2.1 ∧
                (∀ x, s'.1 x ≤ diagRun b (min i x)) ∧ s'.1 i = diagRun b i ∧
                st.2.2.2 ≤ s'.2.2.2 ∧ diagRun b i ≤ s'.2.2.2)
              (flmStep st.1 i) post _
              ⟨rfl,
                fun x => by
                  by_cases hx : x = i
                  · subst hx
                    simp
                  · simp only [if_neg hx]
                    exact hs1 x,
                by simp,
                by dsimp only; omega,
                by dsimp only; omega⟩
              (fun s' j hj hq => hCstep s' j hj hq)
          · have hmid : flmStep st.1 i (nj, bi2, bj2, bs2) i =
                ((fun x => if x = i then diagRun b i else nj x), bi2, bj2, bs2) := by
              unfold flmStep
              dsimp only
              rw [hKi, if_neg hup]
            rw [hmid]
            exact foldl_inv
              (fun (s' : FlmSt) => s'.2.1 = s'.2.2.1 ∧
                (∀ x, s'.1 x ≤ diagRun b (min i x)) ∧ s'.1 i = diagRun b i ∧
                st.2.2.2 ≤ s'.2.2.2 ∧ diagRun b i ≤ s'.2.2.2)
              (flmStep st.1 i) post _
              ⟨by dsimp only; rw [hs2, hs3]; exact hpd,
                fun x => by
                  by_cases hx : x = i
                  · subst hx
                    simp
                  · simp only [if_neg hx]
                    exact hs1 x,
                by simp,
                by dsimp only; omega,
                by dsimp only; omega⟩
              (fun s' j hj hq => hCstep s' j hj hq)
        have hA := foldl_inv
          (fun (s : FlmSt) => (∀ x, s.1 x ≤ diagRun b (min i x)) ∧
            s.2.1 = st.2.1 ∧ s.2.2.1 = st.2.2.1 ∧ s.2.2.2 = st.2.2.2)
          (flmStep st.1 i) pre ((fun _ => 0), st.2)
          ⟨fun x => Nat.zero_le _, rfl, rfl, rfl⟩
          (by
            intro s j hj hq
            obtain ⟨nj, bi2, bj2, bs2⟩ := s
            obtain ⟨hq1, hq2, hq3, hq4⟩ := hq
            dsimp only at hq1 hq2 hq3 hq4
            have hjlt : j < i := hpre j hj
            have hjb : j ∈ b2j b (b.getD i default) := by
              rw [hdec]
              exact List.mem_append_left _ hj
            have hjNP := mem_b2j_self hjb
            have hdiaJ := diagRun_of_mem hjNP
            unfold flmStep
            dsimp only
            set K := (if j = 0 then 0 else st.1 (j - 1)) + 1 with hK
            have hkd : K ≤ diagRun b j := by
              rw [hK]
              by_cases hj0 : j = 0
              · rw [if_pos hj0]
                rw [hj0, if_pos rfl] at hdiaJ
                rw [hj0]
                omega
              · rw [if_neg hj0]
                rw [if_neg hj0] at hdiaJ
                have hb1 := hpb (j - 1)
                rw [if_neg (by omega : ¬ i = 0)] at hb1
                have hmin : min (i - 1) (j - 1) = j - 1 := by omega
                rw [hmin] at hb1
                omega
            have hkbs : K ≤ bs2 := by
              have := hpv j (by omega)
              omega
            rw [if_neg (by omega : ¬ bs2 < K)]
            refine ⟨fun x => ?_, hq2, hq3, hq4⟩
            by_cases hx : x = j
            · simp only [hx, if_pos rfl]
              have hmin : min i j = j := by omega
              rw [hmin]
              exact hkd
            · simp only [if_neg hx]
              exact hq1 x)
        obtain ⟨hA1, hA2, hA3, hA4⟩ := hA
        have hfinal := hBC (List.foldl (flmStep st.1 i) ((fun _ => 0), st.2) pre)
          hA1 hA2 hA3 hA4
        obtain ⟨hf1, hf2, hf3, hf4, hf5⟩ := hfinal
        refine ⟨hf1, ?_, ?_, ?_⟩
        · intro x
          rw [if_neg (by omega : ¬ i + 1 = 0), Nat.add_sub_cancel]
          exact hf2 x
        · intro r1 hr1
          have hri : r1 = i := by omega
          subst hri
          exact hf3
        · intro r' hr'
          by_cases hri : r' = i
          · subst hri
            exact hf5
          · exact le_trans (hpv r' (by omega)) hf4)
  unfold flmDP
  exact main.1

/-- On identical sequences a diagonal block extends all the way to the
left. -/
theorem extendLeft_diag {α : Type} [DecidableEq α] [Inhabited α] (b : List α) :
    ∀ bi bs, extendLeft b b 0 0 bi bi bs = (0, 0, bs + bi) := by
  intro bi
  induction bi with
  | zero => intro bs; rfl
  | succ m ih =>
    intro bs
    rw [extendLeft, if_pos ⟨Nat.succ_pos m, Nat.succ_pos m, rfl⟩, Nat.add_sub_cancel,
      ih (bs + 1), show bs + 1 + m = bs + (m + 1) by omega]

/-- On identical sequences a diagonal block starting at `0` extends all
the way to the right. -/
theorem extendRightF_full {α : Type} [DecidableEq α] [Inhabited α] (b : List α) :
    ∀ fuel bs, fuel = b.length - bs → bs ≤ b.length →
      extendRightF b b b.length b.length 0 0 fuel bs = b.length := by
  intro fuel
  induction fuel with
  | zero =>
    intro bs h1 h2
    show bs = b.length
    omega
  | succ m ih =>
    intro bs h1 h2
    rw [extendRightF, if_pos ⟨by omega, by omega, rfl⟩]
    exact ih (bs + 1) (by omega) (by omega)

/-- `find_longest_match` on a sequence against itself returns the whole
range. -/
theorem flm_self {α : Type} [DecidableEq α] [Inhabited α] (b : List α) :
    find_longest_match b b 0 b.length 0 b.length = (0, 0, b.length) := by
  have hd := flmDP_diag b
  have hb := flmDP_bounds b b 0 b.length 0 b.length (Nat.zero_le _) (Nat.zero_le _)
  obtain ⟨hb1, hb2, hb3, hb4⟩ := hb
  unfold find_longest_match
  dsimp only
  rw [← hd, extendLeft_diag]
  dsimp only
  rw [extendRightF_full b _ _ (by omega) (by omega)]

theorem matchingBlocksF_of_zero {α : Type} [DecidableEq α] [Inhabited α] (a b : List α)
    (alo ahi blo bhi : Nat) (hk : (find_longest_match a b alo ahi blo bhi).2.2 = 0) :
    ∀ fuel, matchingBlocksF a b fuel alo ahi blo bhi = [] := by
  intro fuel
  cases fuel with
  | zero => rfl
  | succ m =>
    rw [matchingBlocksF]
    rw [if_pos hk]

/-- The matching blocks of a nonempty sequence against itself: the whole
diagonal followed by the sentinel. -/
theorem get_matching_blocks_self {α : Type} [DecidableEq α] [Inhabited α] (b : List α)
    (hb : b ≠ []) :
    get_matching_blocks b b = [(0, 0, b.length), (b.length, b.length, 0)] := by
  have hn : b.length ≠ 0 := by simpa using hb
  unfold get_matching_blocks
  rw [matchingBlocksF]
  rw [flm_self]
  dsimp only
  rw [if_neg hn]
  rw [matchingBlocksF_of_zero b b 0 0 0 0 (flm_degen b b 0 0 0 0 (Or.inl le_rfl)) b.length]
  simp only [Nat.zero_add]
  rw [matchingBlocksF_of_zero b b b.length b.length b.length b.length
    (flm_degen b b b.length b.length b.length b.length (Or.inl le_rfl)) b.length]
  rw [List.nil_append]
  rw [collapseBlocks]
  rw [if_pos ⟨rfl, rfl⟩]
  rw [collapseBlocks]
  simp [hn]

/-- The opcodes of a nonempty sequence against itself: one `equal`
spanning everything. -/
theorem get_opcodes_self {α : Type} [DecidableEq α] [Inhabited α] (b : List α)
    (hb : b ≠ []) : get_opcodes b b = [("equal", 0, b.length, 0, b.length)] := by
  have hn : b.length ≠ 0 := by simpa using hb
  unfold get_opcodes
  rw [get_matching_blocks_self b hb]
  rw [get_opcodes_aux, get_opcodes_aux, get_opcodes_aux]
  simp [hn]

/-- `compare_documents` of a nonempty document against itself: one `Same`
record per paragraph, texts verbatim. -/
theorem compare_documents_self (o : List String) (ho : o ≠ []) :
    compare_documents o o = o.map fun p => ⟨"Same", p, p⟩ := by
  unfold compare_documents
  rw [get_opcodes_self o ho, List.flatMap_cons, List.flatMap_nil, List.append_nil,
    recordsOfOpcode_equal, Nat.sub_zero, zip_range', List.map_map]
  rw [← range_map_getD (fun p => (⟨"Same", p, p⟩ : ChangeRecord)) (default : String) o]
  apply List.map_congr_left
  intro t ht
  dsimp only [Function.comp_apply]
  rw [Nat.zero_add]

/-! ### `strip_tags` leaves no tag-shaped span -/

theorem spanToGt_cons_gt (rest : List Char) : spanToGt ('>' :: rest) = some rest := by
  simp [spanToGt]

theorem spanToGt_cons_of {c : Char} (rest : List Char) (h1 : c ≠ '>') (h2 : c ≠ '\n') :
    spanToGt (c :: rest) = spanToGt rest := by
  simp [spanToGt, h1, h2]

theorem stripTagsF_cons_lt_some (m : Nat) (rest rest2 : List Char)
    (h : spanToGt rest = some rest2) :
    stripTagsF (m + 1) ('<' :: rest) = stripTagsF m rest2 := by
  simp [stripTagsF, h]

theorem stripTagsF_cons_lt_none (m : Nat) (rest : List Char) (h : spanToGt rest = none) :
    stripTagsF (m + 1) ('<' :: rest) = '<' :: stripTagsF m rest := by
  simp [stripTagsF, h]

theorem stripTagsF_cons_other (m : Nat) {c : Char} (rest : List Char) (h : c ≠ '<') :
    stripTagsF (m + 1) (c :: rest) = c :: stripTagsF m rest := by
  simp [stripTagsF, h]

/-- After a kept `'<'` (one whose scan failed), any `'>'` later in the
output is preceded by a newline or another `'>'`: matches never contain
newlines, so the newline that made the scan fail survives. -/
theorem stripTagsF_gt_protected :
    ∀ (fuel : Nat) (l : List Char), l.length ≤ fuel → spanToGt l = none →
      ∀ v w, stripTagsF fuel l = v ++ '>' :: w → '\n' ∈ v ∨ '>' ∈ v := by
  intro fuel
  induction fuel with
  | zero =>
    intro l hl hs v w h
    have hlen := congrArg List.length h
    simp [stripTagsF] at hlen
    omega
  | succ m ih =>
    intro l hl hs v w h
    cases l with
    | nil =>
      have hlen := congrArg List.length h
      simp [stripTagsF] at hlen
      omega
    | cons c rest =>
      by_cases hgt : c = '>'
      · rw [hgt, spanToGt_cons_gt] at hs
        exact absurd hs (by simp)
      · by_cases hnl : c = '\n'
        · rw [stripTagsF_cons_other m rest (by rw [hnl]; decide)] at h
          cases v with
          | nil =>
            rw [List.nil_append] at h
            injection h with h1 h2
            exact absurd (h1.symm.trans hnl) (by decide)
          | cons v0 v' =>
            rw [List.cons_append] at h
            injection h with h1 h2
            left
            rw [← h1, hnl]
            exact List.mem_cons_self _ _
        · have hs2 : spanToGt rest = none := by
            rwa [spanToGt_cons_of rest hgt hnl] at hs
          by_cases hlt : c = '<'
          · rw [hlt, stripTagsF_cons_lt_none m rest hs2] at h
            cases v with
            | nil =>
              rw [List.nil_append] at h
              injection h with h1 h2
              exact absurd h1.symm (by decide)
            | cons v0 v' =>
              rw [List.cons_append] at h
              injection h with h1 h2
              rcases ih rest (by simpa using hl) hs2 v' w h2 with hc | hc
              · exact Or.inl (List.mem_cons_of_mem _ hc)
              · exact Or.inr (List.mem_cons_of_mem _ hc)
          · rw [stripTagsF_cons_other m rest hlt] at h
            cases v with
            | nil =>
              rw [List.nil_append] at h
              injection h with h1 h2
              exact absurd h1 hgt
            | cons v0 v' =>
              rw [List.cons_append] at h
              injection h with h1 h2
              rcases ih rest (by simpa using hl) hs2 v' w h2 with hc | hc
              · exact Or.inl (List.mem_cons_of_mem _ hc)
              · exact Or.inr (List.mem_cons_of_mem _ hc)

/-- The output of `stripTagsF` never contains a `'<'` followed by a
`'>'` with no newline and no `'>'` in between. -/
theorem stripTagsF_no_tag :
    ∀ (fuel : Nat) (l : List Char), l.length ≤ fuel →
      ∀ u v w, stripTagsF fuel l = u ++ '<' :: (v ++ '>' :: w) → '\n' ∈ v ∨ '>' ∈ v := by
  intro fuel
  induction fuel with
  | zero =>
    intro l hl u v w h
    have hlen := congrArg List.length h
    simp [stripTagsF] at hlen
    omega
  | succ m ih =>
    intro l hl u v w h
    cases l with
    | nil =>
      have hlen := congrArg List.length h
      simp [stripTagsF] at hlen
      omega
    | cons c rest =>
      by_cases hlt : c = '<'
      · cases hsp : spanToGt rest with
        | some rest2 =>
          rw [hlt, stripTagsF_cons_lt_some m rest rest2 hsp] at h
          exact ih rest2 (by
            have := spanToGt_length_le hsp
            simp only [List.length_cons] at hl
            omega) u v w h
        | none =>
          rw [hlt, stripTagsF_cons_lt_none m rest hsp] at h
          cases u with
          | nil =>
            rw [List.nil_append] at h
            injection h with h1 h2
            exact stripTagsF_gt_protected m rest (by simpa using hl) hsp v w h2
          | cons u0 u' =>
            rw [List.cons_append] at h
            injection h with h1 h2
            exact ih rest (by simpa using hl) u' v w h2
      · rw [stripTagsF_cons_other m rest hlt] at h
        cases u with
        | nil =>
          rw [List.nil_append] at h
          injection h with h1 h2
          exact absurd h1 hlt
        | cons u0 u' =>
          rw [List.cons_append] at h
          injection h with h1 h2
          exact ih rest (by simpa using hl) u' v w h2

/-- No newline-free tag-shaped span is an infix of a `strip_tags`
output. -/
theorem strip_tags_no_tag (s : String) (v : List Char)
    (hv1 : '\n' ∉ v) (hv2 : '>' ∉ v) :
    ¬ ('<' :: (v ++ ['>'])) <:+: (strip_tags s).data := by
  intro hinf
  obtain ⟨u, w, hw⟩ := hinf
  have heq : (strip_tags s).data = u ++ '<' :: (v ++ '>' :: w) := by
    rw [← hw]
    simp [List.append_assoc]
  rcases stripTagsF_no_tag s.data.length s.data le_rfl u v w heq with hc | hc
  · exact hv1 hc
  · exact hv2 hc

/-- `strip_tags` output contains neither placeholder markers nor the
emphasis markup. -/
theorem strip_tags_clean (s : String) :
    ¬ "<New>".data <:+: (strip_tags s).data ∧
    ¬ "<Deleted>".data <:+: (strip_tags s).data ∧
    ¬ "<u>".data <:+: (strip_tags s).data ∧
    ¬ "</u>".data <:+: (strip_tags s).data := by
  refine ⟨?_, ?_, ?_, ?_⟩
  · have := strip_tags_no_tag s ['N', 'e', 'w'] (by decide) (by decide)
    simpa using this
  · have := strip_tags_no_tag s ['D', 'e', 'l', 'e', 't', 'e', 'd'] (by decide) (by decide)
    simpa using this
  · have := strip_tags_no_tag s ['u'] (by decide) (by decide)
    simpa using this
  · have := strip_tags_no_tag s ['/', 'u'] (by decide) (by decide)
    simpa using this

/-! ### Claims -/

/-- C1, counterexample to the claim as stated: in a `replace` region the
records carry word-diff markup (and escaping), so concatenating the
`Original` texts does not reproduce the original paragraphs verbatim:
comparing `["a"]` against `["b"]` yields the single record
`("Modified", "<u>a</u>", "<u>b</u>")`, whose original text differs from
the input paragraph `"a"`. -/
theorem c1_concat_counterexample :
    compare_documents ["a"] ["b"] = [⟨"Modified", "<u>a</u>", "<u>b</u>"⟩] ∧
    ("<u>a</u>" : String) ≠ "a" ∧
    origSide (compare_documents ["a"] ["b"]) ≠ ["a"] := by
  refine ⟨by decide, by decide, by decide⟩

/-- C1, amended: for every pair of inputs, the records other than the
`Added` ones correspond one to one, in order, with the original
paragraphs — none lost, duplicated or reordered — each `Original` text
rendering its paragraph verbatim, HTML-escaped, or as the original-side
highlighter output; symmetrically the records other than the `Deleted`
ones correspond one to one with the revised paragraphs. -/
theorem c1_total_coverage (o r : List String) :
    List.Forall₂ relOrig o (origSide (compare_documents o r)) ∧
    List.Forall₂ relRev r (revSide (compare_documents o r)) := by
  unfold compare_documents get_opcodes
  constructor
  · have h := coverage_orig o r (get_matching_blocks o r) 0 0 (get_matching_blocks_chain o r)
    rwa [sliceL_self] at h
  · have h := coverage_rev o r (get_matching_blocks o r) 0 0 (get_matching_blocks_chain o r)
    rwa [sliceL_self] at h

/-- C4: comparing a nonempty sequence with itself yields a single `equal`
opcode spanning everything, and one `Same` record per paragraph with both
texts equal to that paragraph. -/
theorem c4_identity (X : List String) (hX : X ≠ []) :
    get_opcodes X X = [("equal", 0, X.length, 0, X.length)] ∧
    compare_documents X X = X.map fun p => ⟨"Same", p, p⟩ :=
  ⟨get_opcodes_self X hX, compare_documents_self X hX⟩

theorem c4_identity_witness :
    (["a", "b"] : List String) ≠ [] ∧
    (get_opcodes ["a", "b"] ["a", "b"] = [("equal", 0, 2, 0, 2)] ∧
      compare_documents ["a", "b"] ["a", "b"] = [⟨"Same", "a", "a"⟩, ⟨"Same", "b", "b"⟩]) :=
  ⟨by decide, c4_identity ["a", "b"] (by decide)⟩

/-- C8: the similarity-ratio threshold never changes the outcome of
`classify_diff`: on distinct nonempty strings it returns
`("Modified", old, new)` for every threshold, and the function is
extensionally the threshold-free exact-match classifier. -/
theorem c8_threshold_dead :
    (∀ (old new : String) (t : ℚ), old ≠ new → old ≠ "" → new ≠ "" →
      classify_diff old new t = ("Modified", old, new)) ∧
    (∀ (old new : String) (t : ℚ), classify_diff old new t = classify_exact old new) := by
  constructor
  · intro old new t h1 h2 h3
    unfold classify_diff
    rw [if_neg h1, if_neg h3, if_neg h2]
    split <;> rfl
  · intro old new t
    unfold classify_diff classify_exact
    by_cases h1 : old = new
    · rw [if_pos h1, if_pos h1]
    · rw [if_neg h1, if_neg h1]
      by_cases h2 : new = ""
      · rw [if_pos h2, if_pos h2]
      · rw [if_neg h2, if_neg h2]
        by_cases h3 : old = ""
        · rw [if_pos h3, if_pos h3]
        · rw [if_neg h3, if_neg h3]
          split <;> rfl

theorem c8_threshold_dead_witness :
    ("abc" : String) ≠ "abd" ∧ ("abc" : String) ≠ "" ∧ ("abd" : String) ≠ "" ∧
    classify_diff "abc" "abd" (9 / 10) = ("Modified", "abc", "abd") :=
  ⟨by decide, by decide, by decide,
    c8_threshold_dead.1 "abc" "abd" (9 / 10) (by decide) (by decide) (by decide)⟩

/-- The absence of placeholder markers and emphasis markup in a string,
as required of plain-text export cells. -/
def noMarkup (s : String) : Prop :=
  ¬ "<New>".data <:+: s.data ∧ ¬ "<Deleted>".data <:+: s.data ∧
  ¬ "<u>".data <:+: s.data ∧ ¬ "</u>".data <:+: s.data

/-- C9: every text cell of the docx export contains neither a
placeholder marker (`"<New>"`, `"<Deleted>"`) nor any emphasis markup
(`"<u>"`, `"</u>"`): `strip_tags` removes every tag-shaped span. -/
theorem c9_export_clean : ∀ (results : List ChangeRecord) (cell : String × String × String),
    cell ∈ create_docx_cells results → noMarkup cell.2.1 ∧ noMarkup cell.2.2 := by
  intro results cell hc
  unfold create_docx_cells at hc
  obtain ⟨rec, hrec, hcell⟩ := List.mem_map.mp hc
  rw [← hcell]
  exact ⟨strip_tags_clean rec.Original, strip_tags_clean rec.Revised⟩

theorem c9_export_clean_witness :
    ("신설", "", "x") ∈ create_docx_cells [⟨"Added", "<New>", "x"⟩] ∧
    (noMarkup ("신설", "", "x").2.1 ∧ noMarkup ("신설", "", "x").2.2) :=
  ⟨by decide, c9_export_clean [⟨"Added", "<New>", "x"⟩] ("신설", "", "x") (by decide)⟩

/-- An opcode whose tag is none of the four known tags produces no
records (no branch of the if-chain fires). -/
theorem recordsOfOpcode_other (o r : List String) (tag : String) (i1 i2 j1 j2 : Nat)
    (h1 : tag ≠ "equal") (h2 : tag ≠ "replace") (h3 : tag ≠ "delete") (h4 : tag ≠ "insert") :
    recordsOfOpcode o r (tag, i1, i2, j1, j2) = [] := by
  simp only [recordsOfOpcode]
  rw [if_neg h1, if_neg h2, if_neg h3, if_neg h4]

/-- Comparing the empty original side against any revised side yields one
wholesale `Added` record per revised paragraph. -/
theorem compare_documents_nil_left (r : List String) :
    compare_documents [] r = r.map fun p => ⟨"Added", "<New>", p⟩ := by
  cases r with
  | nil => rfl
  | cons p tl =>
    have hmb := matchingBlocksF_of_zero ([] : List String) (p :: tl) 0 0 0 (p :: tl).length
      (flm_degen ([] : List String) (p :: tl) 0 0 0 (p :: tl).length (Or.inl le_rfl)) 1
    unfold compare_documents get_opcodes get_matching_blocks
    simp only [List.length_nil, Nat.zero_add]
    rw [hmb, collapseBlocks, if_neg (by omega), List.nil_append]
    rw [get_opcodes_aux, get_opcodes_aux]
    rw [if_neg (by omega), if_neg (by omega), if_pos (by simp), if_neg (by omega)]
    simp only [List.append_nil, List.flatMap_cons, List.flatMap_nil]
    rw [recordsOfOpcode_insert, Nat.sub_zero, ← List.range_eq_range']
    exact range_map_getD (fun q => (⟨"Added", "<New>", q⟩ : ChangeRecord)) default (p :: tl)

/-- Comparing any original side against the empty revised side yields one
wholesale `Deleted` record per original paragraph. -/
theorem compare_documents_nil_right (o : List String) :
    compare_documents o [] = o.map fun p => ⟨"Deleted", p, "<Deleted>"⟩ := by
  cases o with
  | nil => rfl
  | cons p tl =>
    have hmb := matchingBlocksF_of_zero (p :: tl) ([] : List String) 0 (p :: tl).length 0 0
      (flm_degen (p :: tl) ([] : List String) 0 (p :: tl).length 0 0 (Or.inr le_rfl))
      ((p :: tl).length + 1)
    unfold compare_documents get_opcodes get_matching_blocks
    simp only [List.length_nil]
    rw [hmb, collapseBlocks, if_neg (by omega), List.nil_append]
    rw [get_opcodes_aux, get_opcodes_aux]
    rw [if_neg (by omega), if_pos (by simp), if_neg (by omega)]
    simp only [List.append_nil, List.flatMap_cons, List.flatMap_nil]
    rw [recordsOfOpcode_delete, Nat.sub_zero, ← List.range_eq_range']
    exact range_map_getD (fun q => (⟨"Deleted", q, "<Deleted>"⟩ : ChangeRecord)) default (p :: tl)

/-- C5: with an empty original side every record is `Added` with the
`"<New>"` placeholder as its original text, with an empty revised side
every record is `Deleted` with the `"<Deleted>"` placeholder as its
revised text (in particular no `Modified` record is possible), and
comparing `[]` against `["a", "b"]` yields exactly the two `Added`
records. -/
theorem c5_empty_side :
    (∀ (r : List String) (rec : ChangeRecord), rec ∈ compare_documents [] r →
      rec.Status = "Added" ∧ rec.Original = "<New>") ∧
    (∀ (o : List String) (rec : ChangeRecord), rec ∈ compare_documents o [] →
      rec.Status = "Deleted" ∧ rec.Revised = "<Deleted>") ∧
    compare_documents [] ["a", "b"] =
      [⟨"Added", "<New>", "a"⟩, ⟨"Added", "<New>", "b"⟩] := by
  refine ⟨?_, ?_, by decide⟩
  · intro r rec h
    rw [compare_documents_nil_left] at h
    obtain ⟨q, _, hq⟩ := List.mem_map.mp h
    rw [← hq]
    exact ⟨rfl, rfl⟩
  · intro o rec h
    rw [compare_documents_nil_right] at h
    obtain ⟨q, _, hq⟩ := List.mem_map.mp h
    rw [← hq]
    exact ⟨rfl, rfl⟩

theorem c5_empty_side_witness :
    (⟨"Added", "<New>", "a"⟩ : ChangeRecord) ∈ compare_documents [] ["a"] ∧
    ((⟨"Added", "<New>", "a"⟩ : ChangeRecord).Status = "Added" ∧
      (⟨"Added", "<New>", "a"⟩ : ChangeRecord).Original = "<New>") :=
  ⟨by decide, c5_empty_side.1 ["a"] ⟨"Added", "<New>", "a"⟩ (by decide)⟩

/-- `getD` on a mapped range picks out the function value. -/
theorem getD_map_range {β : Type} (f : Nat → β) (d : β) {n k : Nat} (h : k < n) :
    ((List.range n).map f).getD k d = f k := by
  rw [List.getD_eq_getElem?_getD, List.getElem?_map, List.getElem?_range h]
  rfl

/-- C2, counterexample to the claim as stated: `"a  b"` and `"a b"` are
not equal after trimming — `str.strip()` only removes leading and
trailing whitespace, it does not collapse the interior double space — so
the paired record of the `replace` opcode has status `Modified`, not
`Same` (and since the word lists coincide, the highlighter outputs carry
no markup). -/
theorem c2_trim_counterexample :
    get_opcodes ["a  b"] ["a b"] = [("replace", 0, 1, 0, 1)] ∧
    pystrip "a  b" ≠ pystrip "a b" ∧
    compare_documents ["a  b"] ["a b"] = [⟨"Modified", "a b", "a b"⟩] ∧
    (compare_documents ["a  b"] ["a b"]).map (fun rec => rec.Status) ≠ ["Same"] :=
  ⟨by decide, by decide, by decide, by decide⟩

/-- C2, amended: within a `replace` opcode region, every positionally
paired original/revised pair whose texts are equal after trimming
leading and trailing whitespace yields a record with status `Same`
(carrying the escaped texts), and that record appears in the
`compare_documents` output; but trimming does not collapse interior
whitespace, so `["a  b"]` against `["a b"]` is *not* such a pair. -/
theorem c2_trim_rule :
    (∀ (o r : List String) (i1 i2 j1 j2 k : Nat),
      ("replace", i1, i2, j1, j2) ∈ get_opcodes o r →
      k < min (i2 - i1) (j2 - j1) →
      pystrip (o.getD (i1 + k) default) = pystrip (r.getD (j1 + k) default) →
      (recordsOfOpcode o r ("replace", i1, i2, j1, j2)).getD k ⟨"", "", ""⟩ =
        ⟨"Same", escape (o.getD (i1 + k) default), escape (r.getD (j1 + k) default)⟩ ∧
      (⟨"Same", escape (o.getD (i1 + k) default), escape (r.getD (j1 + k) default)⟩ :
          ChangeRecord) ∈ compare_documents o r) ∧
    compare_documents ["a  b"] ["a b"] ≠ [⟨"Same", "a b", "a b"⟩] := by
  refine ⟨?_, by decide⟩
  intro o r i1 i2 j1 j2 k hop hk hstrip
  constructor
  · rw [recordsOfOpcode_replace]
    rw [List.getD_append _ _ _ k (by
      rw [List.length_append, List.length_map, List.length_range]
      omega)]
    rw [List.getD_append _ _ _ k (by rw [List.length_map, List.length_range]; omega)]
    rw [getD_map_range _ _ hk, if_pos hstrip]
  · unfold compare_documents
    refine List.mem_flatMap.mpr ⟨("replace", i1, i2, j1, j2), hop, ?_⟩
    rw [recordsOfOpcode_replace]
    refine List.mem_append.mpr (Or.inl (List.mem_append.mpr (Or.inl ?_)))
    exact List.mem_map.mpr ⟨k, List.mem_range.mpr hk, by rw [if_pos hstrip]⟩

theorem c2_trim_rule_witness :
    (("replace", 0, 1, 0, 1) ∈ get_opcodes [" a"] ["a "] ∧
      0 < min (1 - 0) (1 - 0) ∧
      pystrip (([" a"] : List String).getD (0 + 0) default) =
        pystrip ((["a "] : List String).getD (0 + 0) default)) ∧
    ((recordsOfOpcode [" a"] ["a "] ("replace", 0, 1, 0, 1)).getD 0 ⟨"", "", ""⟩ =
        ⟨"Same", escape (([" a"] : List String).getD (0 + 0) default),
          escape ((["a "] : List String).getD (0 + 0) default)⟩ ∧
      (⟨"Same", escape (([" a"] : List String).getD (0 + 0) default),
          escape ((["a "] : List String).getD (0 + 0) default)⟩ : ChangeRecord) ∈
        compare_documents [" a"] ["a "]) :=
  ⟨⟨by decide, by decide, by decide⟩,
    c2_trim_rule.1 [" a"] ["a "] 0 1 0 1 0 (by decide) (by decide) (by decide)⟩

/-- Every `equal` opcode emitted by the opcode walk spans ranges of the
same length on both sides. -/
theorem get_opcodes_aux_equal_shape :
    ∀ (bs : List (Nat × Nat × Nat)) (i j i1 i2 j1 j2 : Nat),
      ("equal", i1, i2, j1, j2) ∈ get_opcodes_aux i j bs → i2 - i1 = j2 - j1 := by
  intro bs
  induction bs with
  | nil =>
    intro i j i1 i2 j1 j2 h
    exact absurd h (List.not_mem_nil _)
  | cons blk rest ih =>
    obtain ⟨ai, bj, k⟩ := blk
    intro i j i1 i2 j1 j2 h
    rw [get_opcodes_aux] at h
    rcases List.mem_append.mp h with h | h
    · rcases List.mem_append.mp h with h | h
      · split at h
        · simp only [List.mem_singleton, Prod.mk.injEq] at h
          exact absurd h.1 (by decide)
        · split at h
          · simp only [List.mem_singleton, Prod.mk.injEq] at h
            exact absurd h.1 (by decide)
          · split at h
            · simp only [List.mem_singleton, Prod.mk.injEq] at h
              exact absurd h.1 (by decide)
            · exact absurd h (List.not_mem_nil _)
      · split at h
        · simp only [List.mem_singleton, Prod.mk.injEq] at h
          obtain ⟨-, h1, h2, h3, h4⟩ := h
          omega
        · exact absurd h (List.not_mem_nil _)
    · exact ih (ai + k) (bj + k) i1 i2 j1 j2 h

/-- C3, counterexample to the claim as stated: in an `equal` region the
source appends the raw paragraph texts, not the HTML-escaped ones —
comparing `["a<b"]` with itself yields the record
`("Same", "a<b", "a<b")` although escaping would give `"a&lt;b"`. -/
theorem c3_escape_counterexample :
    get_opcodes ["a<b"] ["a<b"] = [("equal", 0, 1, 0, 1)] ∧
    compare_documents ["a<b"] ["a<b"] = [⟨"Same", "a<b", "a<b"⟩] ∧
    escape "a<b" = "a&lt;b" ∧ ("a<b" : String) ≠ "a&lt;b" :=
  ⟨by decide, by decide, by decide, by decide⟩

/-- C3, amended: every `equal` opcode region of length `n = i2 - i1`
spans equally long ranges on both sides and yields exactly `n` records,
each with status `Same` and with `Original`/`Revised` equal to the *raw*
(unescaped) paragraph texts, paired positionally. -/
theorem c3_equal_records (o r : List String) (i1 i2 j1 j2 : Nat)
    (h : ("equal", i1, i2, j1, j2) ∈ get_opcodes o r) :
    i2 - i1 = j2 - j1 ∧
    recordsOfOpcode o r ("equal", i1, i2, j1, j2) =
      ((List.range (i2 - i1)).map fun t =>
        ⟨"Same", o.getD (i1 + t) default, r.getD (j1 + t) default⟩) ∧
    (recordsOfOpcode o r ("equal", i1, i2, j1, j2)).length = i2 - i1 := by
  have hsh := get_opcodes_aux_equal_shape (get_matching_blocks o r) 0 0 i1 i2 j1 j2 h
  refine ⟨hsh, ?_, ?_⟩
  · rw [recordsOfOpcode_equal, ← hsh, zip_range', List.map_map]
    rfl
  · rw [recordsOfOpcode_equal, List.length_map, List.length_zip, List.length_range',
      List.length_range', ← hsh, Nat.min_self]

theorem c3_equal_records_witness :
    ("equal", 0, 1, 0, 1) ∈ get_opcodes ["x"] ["x"] ∧
    ((1 : Nat) - 0 = 1 - 0 ∧
      recordsOfOpcode ["x"] ["x"] ("equal", 0, 1, 0, 1) =
        ((List.range (1 - 0)).map fun t =>
          ⟨"Same", (["x"] : List String).getD (0 + t) default,
            (["x"] : List String).getD (0 + t) default⟩) ∧
      (recordsOfOpcode ["x"] ["x"] ("equal", 0, 1, 0, 1)).length = 1 - 0) :=
  ⟨by decide, c3_equal_records ["x"] ["x"] 0 1 0 1 (by decide)⟩

/-- C10: every record of `compare_documents` has one of the four
statuses, every `Deleted` record carries the `"<Deleted>"` placeholder as
its revised text, and every `Added` record carries the `"<New>"`
placeholder as its original text. -/
theorem c10_record_invariants : ∀ (o r : List String) (rec : ChangeRecord),
    rec ∈ compare_documents o r →
    (rec.Status = "Same" ∨ rec.Status = "Modified" ∨ rec.Status = "Added" ∨
      rec.Status = "Deleted") ∧
    (rec.Status = "Deleted" → rec.Revised = "<Deleted>") ∧
    (rec.Status = "Added" → rec.Original = "<New>") := by
  intro o r rec hrec
  unfold compare_documents at hrec
  obtain ⟨op, _, hmem⟩ := List.mem_flatMap.mp hrec
  obtain ⟨tag, i1, i2, j1, j2⟩ := op
  by_cases h1 : tag = "equal"
  · subst h1
    rw [recordsOfOpcode_equal] at hmem
    obtain ⟨ij, _, hr2⟩ := List.mem_map.mp hmem
    subst hr2
    exact ⟨Or.inl rfl, fun hcon => absurd hcon same_ne_deleted,
      fun hcon => absurd hcon same_ne_added⟩
  by_cases h2 : tag = "replace"
  · subst h2
    rw [recordsOfOpcode_replace] at hmem
    rcases List.mem_append.mp hmem with hmem | hmem
    · rcases List.mem_append.mp hmem with hmem | hmem
      · obtain ⟨k0, _, hr2⟩ := List.mem_map.mp hmem
        subst hr2
        split
        · exact ⟨Or.inl rfl, fun hcon => absurd hcon same_ne_deleted,
            fun hcon => absurd hcon same_ne_added⟩
        · exact ⟨Or.inr (Or.inl rfl), fun hcon => absurd hcon modified_ne_deleted,
            fun hcon => absurd hcon modified_ne_added⟩
      · obtain ⟨k0, _, hr2⟩ := List.mem_map.mp hmem
        subst hr2
        exact ⟨Or.inr (Or.inr (Or.inr rfl)), fun _ => rfl,
          fun hcon => absurd hcon deleted_ne_added⟩
    · obtain ⟨k0, _, hr2⟩ := List.mem_map.mp hmem
      subst hr2
      exact ⟨Or.inr (Or.inr (Or.inl rfl)), fun hcon => absurd hcon added_ne_deleted,
        fun _ => rfl⟩
  by_cases h3 : tag = "delete"
  · subst h3
    rw [recordsOfOpcode_delete] at hmem
    obtain ⟨k0, _, hr2⟩ := List.mem_map.mp hmem
    subst hr2
    exact ⟨Or.inr (Or.inr (Or.inr rfl)), fun _ => rfl,
      fun hcon => absurd hcon deleted_ne_added⟩
  by_cases h4 : tag = "insert"
  · subst h4
    rw [recordsOfOpcode_insert] at hmem
    obtain ⟨k0, _, hr2⟩ := List.mem_map.mp hmem
    subst hr2
    exact ⟨Or.inr (Or.inr (Or.inl rfl)), fun hcon => absurd hcon added_ne_deleted,
      fun _ => rfl⟩
  rw [recordsOfOpcode_other o r tag i1 i2 j1 j2 h1 h2 h3 h4] at hmem
  exact absurd hmem (List.not_mem_nil rec)

theorem c10_record_invariants_witness :
    (⟨"Deleted", "a", "<Deleted>"⟩ : ChangeRecord) ∈ compare_documents ["a"] [] ∧
    (((⟨"Deleted", "a", "<Deleted>"⟩ : ChangeRecord).Status = "Same" ∨
        (⟨"Deleted", "a", "<Deleted>"⟩ : ChangeRecord).Status = "Modified" ∨
        (⟨"Deleted", "a", "<Deleted>"⟩ : ChangeRecord).Status = "Added" ∨
        (⟨"Deleted", "a", "<Deleted>"⟩ : ChangeRecord).Status = "Deleted") ∧
      ((⟨"Deleted", "a", "<Deleted>"⟩ : ChangeRecord).Status = "Deleted" →
        (⟨"Deleted", "a", "<Deleted>"⟩ : ChangeRecord).Revised = "<Deleted>") ∧
      ((⟨"Deleted", "a", "<Deleted>"⟩ : ChangeRecord).Status = "Added" →
        (⟨"Deleted", "a", "<Deleted>"⟩ : ChangeRecord).Original = "<New>")) :=
  ⟨by decide, c10_record_invariants ["a"] [] ⟨"Deleted", "a", "<Deleted>"⟩ (by decide)⟩

/-- The words `hlStep` appends to the original-side output for one
opcode: `equal` words escaped, `replace`/`delete` words wrapped in
`<u>…</u>`, `insert` words contributing nothing. -/
def hlA (aw : List String) (op : String × Nat × Nat × Nat × Nat) : List String :=
  if op.1 = "equal" then ((aw.drop op.2.1).take (op.2.2.1 - op.2.1)).map escape
  else if op.1 = "replace" ∨ op.1 = "delete" then
    ((aw.drop op.2.1).take (op.2.2.1 - op.2.1)).map (fun w => "<u>" ++ escape w ++ "</u>")
  else []

/-- The words `hlStep` appends to the revised-side output for one opcode:
`equal` words escaped, `replace`/`insert` words wrapped in `<u>…</u>`,
`delete` words contributing nothing. -/
def hlB (bw : List String) (op : String × Nat × Nat × Nat × Nat) : List String :=
  if op.1 = "equal" then ((bw.drop op.2.2.2.1).take (op.2.2.2.2 - op.2.2.2.1)).map escape
  else if op.1 = "replace" ∨ op.1 = "insert" then
    ((bw.drop op.2.2.2.1).take (op.2.2.2.2 - op.2.2.2.1)).map
      (fun w => "<u>" ++ escape w ++ "</u>")
  else []

theorem hlStep_eq (aw bw : List String) (acc : List String × List String)
    (op : String × Nat × Nat × Nat × Nat) :
    hlStep aw bw acc op = (acc.1 ++ hlA aw op, acc.2 ++ hlB bw op) := by
  simp only [hlStep, hlA, hlB]
  by_cases h1 : op.1 = "equal"
  · simp only [if_pos h1]
  · simp only [if_neg h1]
    by_cases h2 : op.1 = "replace" ∨ op.1 = "delete"
    · simp only [if_pos h2]
      by_cases h3 : op.1 = "replace" ∨ op.1 = "insert"
      · simp only [if_pos h3]
      · simp only [if_neg h3, List.append_nil]
    · simp only [if_neg h2]
      by_cases h3 : op.1 = "replace" ∨ op.1 = "insert"
      · simp only [if_pos h3, List.append_nil]
      · simp only [if_neg h3, List.append_nil]

/-- The highlighter's fold is the concatenation of the per-opcode word
segments. -/
theorem hl_foldl (aw bw : List String) :
    ∀ (ops : List (String × Nat × Nat × Nat × Nat)) (acc : List String × List String),
      ops.foldl (hlStep aw bw) acc =
        (acc.1 ++ ops.flatMap (hlA aw), acc.2 ++ ops.flatMap (hlB bw)) := by
  intro ops
  induction ops with
  | nil =>
    intro acc
    simp only [List.foldl_nil, List.flatMap_nil, List.append_nil]
  | cons op rest ih =>
    intro acc
    rw [List.foldl_cons, hlStep_eq, ih, List.flatMap_cons, List.flatMap_cons]
    simp only [List.append_assoc]

/-- C6: the highlighter output is the space-join of per-opcode word
segments (`hlA` on the original side, `hlB` on the revised side); on the
original side `equal` words pass through escaped but unmarked while
`replace`/`delete` words are wrapped in the `<u>…</u>` emphasis marker,
on the revised side `equal` words pass through escaped while
`replace`/`insert` words are wrapped; and on
`"the quick fox"`/`"the slow fox"` the words `the` and `fox` are
unmarked in both outputs while `quick`/`slow` are marked. -/
theorem c6_highlight :
    (∀ a b : String,
      highlight_differences a b =
        (String.intercalate " "
          ((get_opcodes (pysplit a) (pysplit b)).flatMap (hlA (pysplit a))),
         String.intercalate " "
          ((get_opcodes (pysplit a) (pysplit b)).flatMap (hlB (pysplit b))))) ∧
    (∀ (aw : List String) (op : String × Nat × Nat × Nat × Nat),
      (op.1 = "equal" → hlA aw op = (sliceL aw op.2.1 op.2.2.1).map escape) ∧
      (op.1 = "replace" ∨ op.1 = "delete" →
        hlA aw op = ((sliceL aw op.2.1 op.2.2.1).map fun w => "<u>" ++ escape w ++ "</u>"))) ∧
    (∀ (bw : List String) (op : String × Nat × Nat × Nat × Nat),
      (op.1 = "equal" → hlB bw op = (sliceL bw op.2.2.2.1 op.2.2.2.2).map escape) ∧
      (op.1 = "replace" ∨ op.1 = "insert" →
        hlB bw op =
          ((sliceL bw op.2.2.2.1 op.2.2.2.2).map fun w => "<u>" ++ escape w ++ "</u>"))) ∧
    (get_opcodes (pysplit "the quick fox") (pysplit "the slow fox") =
      [("equal", 0, 1, 0, 1), ("replace", 1, 2, 1, 2), ("equal", 2, 3, 2, 3)] ∧
     highlight_differences "the quick fox" "the slow fox" =
      ("the <u>quick</u> fox", "the <u>slow</u> fox")) := by
  refine ⟨?_, ?_, ?_, by decide, by decide⟩
  · intro a b
    simp only [highlight_differences]
    rw [hl_foldl]
    simp only [List.nil_append]
  · intro aw op
    constructor
    · intro h
      simp only [hlA]
      rw [if_pos h]
      rfl
    · intro h
      simp only [hlA]
      rcases h with h | h
      · rw [h, if_neg (by decide), if_pos (by decide)]
        rfl
      · rw [h, if_neg (by decide), if_pos (by decide)]
        rfl
  · intro bw op
    constructor
    · intro h
      simp only [hlB]
      rw [if_pos h]
      rfl
    · intro h
      simp only [hlB]
      rcases h with h | h
      · rw [h, if_neg (by decide), if_pos (by decide)]
        rfl
      · rw [h, if_neg (by decide), if_pos (by decide)]
        rfl

theorem c6_highlight_witness :
    highlight_differences "the quick fox" "the slow fox" =
      (String.intercalate " "
        ((get_opcodes (pysplit "the quick fox") (pysplit "the slow fox")).flatMap
          (hlA (pysplit "the quick fox"))),
       String.intercalate " "
        ((get_opcodes (pysplit "the quick fox") (pysplit "the slow fox")).flatMap
          (hlB (pysplit "the slow fox")))) ∧
    hlA ["the", "quick", "fox"] ("equal", 0, 1, 0, 1) =
      (sliceL ["the", "quick", "fox"] 0 1).map escape ∧
    hlA ["the", "quick", "fox"] ("replace", 1, 2, 1, 2) =
      ((sliceL ["the", "quick", "fox"] 1 2).map fun w => "<u>" ++ escape w ++ "</u>") ∧
    hlB ["the", "slow", "fox"] ("replace", 1, 2, 1, 2) =
      ((sliceL ["the", "slow", "fox"] 1 2).map fun w => "<u>" ++ escape w ++ "</u>") :=
  ⟨c6_highlight.1 "the quick fox" "the slow fox",
   (c6_highlight.2.1 ["the", "quick", "fox"] ("equal", 0, 1, 0, 1)).1 rfl,
   (c6_highlight.2.1 ["the", "quick", "fox"] ("replace", 1, 2, 1, 2)).2 (Or.inl rfl),
   (c6_highlight.2.2.1 ["the", "slow", "fox"] ("replace", 1, 2, 1, 2)).2 (Or.inl rfl)⟩

/-- The opcodes, read in order from position `(i, j)`, tile both
sequences contiguously: each opcode's ranges start exactly where the
previous opcode's ranges ended (original-sequence order). -/
def OpcodesTile : Nat → Nat → List (String × Nat × Nat × Nat × Nat) → Prop
  | _, _, [] => True
  | i, j, op :: rest =>
    op.2.1 = i ∧ op.2.2.2.1 = j ∧ i ≤ op.2.2.1 ∧ j ≤ op.2.2.2.2 ∧
    OpcodesTile op.2.2.1 op.2.2.2.2 rest

theorem get_opcodes_aux_tile :
    ∀ (bs : List (Nat × Nat × Nat)) (i j la lb : Nat),
      ChainExact i j bs la lb → OpcodesTile i j (get_opcodes_aux i j bs) := by
  intro bs
  induction bs with
  | nil =>
    intro i j la lb _
    exact trivial
  | cons blk rest ih =>
    obtain ⟨ai, bj, k⟩ := blk
    intro i j la lb hch
    obtain ⟨hia, hjb, hrest⟩ := hch
    rw [get_opcodes_aux]
    have htail : OpcodesTile ai bj
        ((if k ≠ 0 then [("equal", ai, ai + k, bj, bj + k)] else []) ++
          get_opcodes_aux (ai + k) (bj + k) rest) := by
      by_cases hk : k ≠ 0
      · rw [if_pos hk]
        exact ⟨rfl, rfl, Nat.le_add_right ai k, Nat.le_add_right bj k,
          ih (ai + k) (bj + k) la lb hrest⟩
      · rw [if_neg hk]
        have hk0 : k = 0 := by omega
        subst hk0
        exact ih (ai + 0) (bj + 0) la lb hrest
    by_cases h1 : i < ai ∧ j < bj
    · rw [if_pos h1]
      exact ⟨rfl, rfl, le_of_lt h1.1, le_of_lt h1.2, htail⟩
    · rw [if_neg h1]
      by_cases h2 : i < ai
      · rw [if_pos h2]
        exact ⟨rfl, rfl, le_of_lt h2, hjb, htail⟩
      · rw [if_neg h2]
        by_cases h3 : j < bj
        · rw [if_pos h3]
          exact ⟨rfl, rfl, hia, le_of_lt h3, htail⟩
        · rw [if_neg h3]
          have hai : ai = i := by omega
          have hbj : bj = j := by omega
          subst hai
          subst hbj
          exact htail

/-- The opcodes of any comparison tile both sequences from `(0, 0)`. -/
theorem get_opcodes_tile {α : Type} [DecidableEq α] [Inhabited α] (a b : List α) :
    OpcodesTile 0 0 (get_opcodes a b) :=
  get_opcodes_aux_tile (get_matching_blocks a b) 0 0 a.length b.length
    (get_matching_blocks_chain a b)

/-- C7: `compare_documents` emits the records of the opcodes in opcode
order, the opcodes themselves tile both sequences in original-sequence
order, and within a `replace` region the `min(L1, L2)` positionally
paired `Same`/`Modified` records come first, then the `L1 - min`
leftover `Deleted` records, then the `L2 - min` leftover `Added`
records. -/
theorem c7_record_order :
    (∀ o r : List String,
      compare_documents o r = (get_opcodes o r).flatMap (recordsOfOpcode o r) ∧
      OpcodesTile 0 0 (get_opcodes o r)) ∧
    (∀ (o r : List String) (i1 i2 j1 j2 : Nat),
      ∃ paired deleted added : List ChangeRecord,
        recordsOfOpcode o r ("replace", i1, i2, j1, j2) = paired ++ deleted ++ added ∧
        paired.length = min (i2 - i1) (j2 - j1) ∧
        deleted.length = (i2 - i1) - min (i2 - i1) (j2 - j1) ∧
        added.length = (j2 - j1) - min (i2 - i1) (j2 - j1) ∧
        (∀ rec ∈ paired, rec.Status = "Same" ∨ rec.Status = "Modified") ∧
        (∀ rec ∈ deleted, rec.Status = "Deleted") ∧
        (∀ rec ∈ added, rec.Status = "Added")) := by
  constructor
  · intro o r
    exact ⟨rfl, get_opcodes_tile o r⟩
  · intro o r i1 i2 j1 j2
    refine ⟨_, _, _, recordsOfOpcode_replace o r i1 i2 j1 j2, ?_, ?_, ?_, ?_, ?_, ?_⟩
    · rw [List.length_map, List.length_range]
    · rw [List.length_map, List.length_range']
    · rw [List.length_map, List.length_range']
    · intro rec hrec
      obtain ⟨k0, _, hk⟩ := List.mem_map.mp hrec
      subst hk
      split
      · exact Or.inl rfl
      · exact Or.inr rfl
    · intro rec hrec
      obtain ⟨k0, _, hk⟩ := List.mem_map.mp hrec
      subst hk
      rfl
    · intro rec hrec
      obtain ⟨k0, _, hk⟩ := List.mem_map.mp hrec
      subst hk
      rfl

theorem c7_record_order_witness :
    (compare_documents ["a"] ["b"] =
        (get_opcodes ["a"] ["b"]).flatMap (recordsOfOpcode ["a"] ["b"]) ∧
      OpcodesTile 0 0 (get_opcodes ["a"] ["b"])) ∧
    (∃ paired deleted added : List ChangeRecord,
      recordsOfOpcode ["a"] ["b"] ("replace", 0, 1, 0, 1) = paired ++ deleted ++ added ∧
      paired.length = min (1 - 0) (1 - 0) ∧
      deleted.length = (1 - 0) - min (1 - 0) (1 - 0) ∧
      added.length = (1 - 0) - min (1 - 0) (1 - 0) ∧
      (∀ rec ∈ paired, rec.Status = "Same" ∨ rec.Status = "Modified") ∧
      (∀ rec ∈ deleted, rec.Status = "Deleted") ∧
      (∀ rec ∈ added, rec.Status = "Added")) :=
  ⟨c7_record_order.1 ["a"] ["b"], c7_record_order.2 ["a"] ["b"] 0 1 0 1⟩

end DocComparator
